import Mathlib

/-!
# Verification of the LightGBM core against its specification

Shallow embedding of the training/inference engine's components
(`Predictor`, `GBDT`, `DART`, `DataPartition`, `LRUPool`, `Metadata`,
model (de)serialisation) and proofs of the specified properties.

Machine doubles are modelled by exact rationals (`ℚ`); `std::exp` is an
uninterpreted parameter where it occurs.  Array-mutating loops are embedded
as explicit state passing; OpenMP bulk-synchronous loops are embedded by
their sequential denotation (chunk decomposition made explicit).
-/

namespace LightGBM

/-! ## Predictor (src/application/predictor.hpp)

`Predictor::PutFeatureValuesToBuffer` zeroes the per-thread scratch buffer
(`memset`) and then writes `p.second` at position `p.first` for every parsed
pair with `p.first < num_features_`.  The buffer is embedded as a
`List ℚ` of length `num_features_`; a parsed row is a `List (ℕ × ℚ)`
(the parser produces non-negative column indices). -/

def putFeatureValuesToBuffer (numFeatures : ℕ) (features : List (ℕ × ℚ)) : List ℚ :=
  features.foldl
    (fun buf p => if p.1 < numFeatures then buf.set p.1 p.2 else buf)
    (List.replicate numFeatures 0)

/-! ## GBDT prediction (GBDT::PredictRaw / GBDT::Predict)

A tree in a loaded model is represented by its prediction function on input
rows; `num_used_model_` selects the prefix of the model that is summed.
`std::exp` is passed as an uninterpreted function `E : ℚ → ℚ`. -/

structure PredModel (α : Type) where
  models : List (α → ℚ)
  numUsedModel : ℕ
  sigmoid : ℚ

def PredictRaw {α : Type} (m : PredModel α) (v : α) : ℚ :=
  (List.range m.numUsedModel).foldl
    (fun ret i => ret + (m.models.getD i (fun _ => 0)) v) 0

def Predict {α : Type} (E : ℚ → ℚ) (m : PredModel α) (v : α) : ℚ :=
  let ret := (List.range m.numUsedModel).foldl
    (fun ret i => ret + (m.models.getD i (fun _ => 0)) v) 0
  if m.sigmoid > 0 then 1 / (1 + E (-2 * m.sigmoid * ret)) else ret

end LightGBM

namespace LightGBM

theorem putFeature_foldl_length (numFeatures : ℕ) (features : List (ℕ × ℚ))
    (init : List ℚ) (hlen : init.length = numFeatures) :
    (features.foldl
      (fun buf p => if p.1 < numFeatures then buf.set p.1 p.2 else buf) init).length
      = numFeatures := by
  induction features generalizing init with
  | nil => simpa using hlen
  | cons p ps ih =>
    simp only [List.foldl_cons]
    apply ih
    by_cases h : p.1 < numFeatures
    · simp [h, hlen]
    · simp [h, hlen]

theorem putFeature_foldl_ignored (numFeatures : ℕ) (features : List (ℕ × ℚ))
    (init : List ℚ) :
    features.foldl
      (fun buf p => if p.1 < numFeatures then buf.set p.1 p.2 else buf) init
      = (features.filter (fun p => p.1 < numFeatures)).foldl
        (fun buf p => if p.1 < numFeatures then buf.set p.1 p.2 else buf) init := by
  induction features generalizing init with
  | nil => rfl
  | cons p ps ih =>
    by_cases h : p.1 < numFeatures
    · simp only [List.foldl_cons, List.filter_cons, if_pos h, decide_eq_true_eq]
      exact ih _
    · simp only [List.foldl_cons, List.filter_cons, if_neg h, decide_eq_true_eq]
      exact ih _

theorem putFeature_foldl_absent (numFeatures : ℕ) (features : List (ℕ × ℚ))
    (init : List ℚ) (i : ℕ) (hi : i ∉ features.map Prod.fst) :
    (features.foldl
      (fun buf p => if p.1 < numFeatures then buf.set p.1 p.2 else buf) init).get? i
      = init.get? i := by
  induction features generalizing init with
  | nil => rfl
  | cons p ps ih =>
    simp only [List.map_cons, List.mem_cons] at hi
    push_neg at hi
    simp only [List.foldl_cons]
    rw [ih _ hi.2]
    by_cases h : p.1 < numFeatures
    · simp only [if_pos h]
      rw [List.get?_eq_getElem?, List.get?_eq_getElem?,
        List.getElem?_set_ne (fun hne => hi.1 hne.symm)]
    · simp [h]

/-- C10: the per-row scratch buffer is zeroed and then written only at
positions strictly below the model's feature count: the buffer keeps length
`numFeatures`, pairs with index `≥ numFeatures` are silently dropped (the
result equals the run on the filtered row), and any feature index absent
from the row holds value `0` afterwards. -/
theorem predictor_buffer_safety (numFeatures : ℕ) (features : List (ℕ × ℚ)) :
    (putFeatureValuesToBuffer numFeatures features).length = numFeatures ∧
    putFeatureValuesToBuffer numFeatures features
      = putFeatureValuesToBuffer numFeatures
          (features.filter (fun p => p.1 < numFeatures)) ∧
    (∀ i : ℕ, i < numFeatures → i ∉ features.map Prod.fst →
      (putFeatureValuesToBuffer numFeatures features).get? i = some 0) := by
  refine ⟨?_, ?_, ?_⟩
  · exact putFeature_foldl_length _ _ _ (List.length_replicate _ _)
  · exact putFeature_foldl_ignored _ _ _
  · intro i hi habs
    rw [putFeatureValuesToBuffer, putFeature_foldl_absent _ _ _ _ habs]
    simp [List.get?_eq_get, hi]

/-- Witness for C10 at a concrete row: index 1 is absent from the row
`[(0, 5), (7, 9)]`, so position 1 of the buffer of size 2 holds 0. -/
theorem predictor_buffer_safety_witness :
    (putFeatureValuesToBuffer 2 [(0, (5 : ℚ)), (7, 9)]).get? 1 = some 0 :=
  (predictor_buffer_safety 2 [(0, (5 : ℚ)), (7, 9)]).2.2 1 (by decide) (by decide)

theorem predict_loop_eq_raw {α : Type} (m : PredModel α) (v : α) :
    (List.range m.numUsedModel).foldl
      (fun ret i => ret + (m.models.getD i (fun _ => 0)) v) 0 = PredictRaw m v := rfl

/-- C9: `GBDT::Predict` returns exactly `PredictRaw` (the sum over the used
trees) whenever the model's `sigmoid` parameter is not positive — in
particular for the default `sigmoid = -1` installed when the model file has
no `sigmoid=` line — and returns `1 / (1 + exp (-2·sigmoid·PredictRaw v))`
whenever `sigmoid > 0`, for every choice of the external `exp` function. -/
theorem predict_sigmoid_cases {α : Type} (E : ℚ → ℚ) (m : PredModel α) (v : α) :
    (m.sigmoid ≤ 0 → Predict E m v = PredictRaw m v) ∧
    (m.sigmoid = -1 → Predict E m v = PredictRaw m v) ∧
    (m.sigmoid > 0 →
      Predict E m v = 1 / (1 + E (-2 * m.sigmoid * PredictRaw m v))) := by
  refine ⟨fun h => ?_, fun h => ?_, fun h => ?_⟩
  · rw [Predict, predict_loop_eq_raw, if_neg (by exact not_lt.mpr h)]
  · rw [Predict, predict_loop_eq_raw, if_neg (by rw [h]; norm_num)]
  · rw [Predict, predict_loop_eq_raw, if_pos h]

/-- Witness for C9: a concrete two-tree model with the default
`sigmoid = -1` predicts the raw sum. -/
theorem predict_sigmoid_cases_witness :
    Predict (fun q => q)
        ⟨[fun x => x, fun x => x + 1], 2, -1⟩ (3 : ℚ)
      = PredictRaw ⟨[fun x => x, fun x => x + 1], 2, -1⟩ (3 : ℚ) :=
  (predict_sigmoid_cases (fun q => q) _ _).1 (by norm_num)

end LightGBM

namespace LightGBM.LRUPool

/-! ## LRUPool (include/LightGBM/utils/lru_pool.h)

The pooled payload type `T` is instantiated as `ℕ`.  Raw `int` arrays
`mapper_` / `inverse_mapper_` (with `-1` for "unset") are embedded as
`ℕ → ℤ`. -/

structure State where
  poolv : ℕ → ℕ
  cacheSize : ℕ
  totalSize : ℕ
  isEnough : Bool
  mapper : ℕ → ℤ
  inverseMapper : ℕ → ℤ
  lastUsedTime : ℕ → ℕ
  curTime : ℕ

/-- Modelled from the spec: `ArrayArgs<int>::ArgMin(last_used_time_, cache_size_)`
(utils/array_args.h is absent from the sources) — "on miss, evicts the LRU
slot": the first index in `[0, n)` attaining the minimal value. -/
def argMin (f : ℕ → ℕ) (n : ℕ) : ℕ :=
  (List.range n).foldl (fun best i => if f i < f best then i else best) 0

/-- `LRUPool::Get`: returns (hit?, `*out`, updated pool). -/
def Get (idx : ℕ) (s : State) : Bool × ℕ × State :=
  if s.isEnough then (true, s.poolv idx, s)
  else if 0 ≤ s.mapper idx then
    let slot := (s.mapper idx).toNat
    (true, s.poolv slot,
      { s with lastUsedTime := Function.update s.lastUsedTime slot (s.curTime + 1),
               curTime := s.curTime + 1 })
  else
    let slot := argMin s.lastUsedTime s.cacheSize
    let s1 := { s with
      lastUsedTime := Function.update s.lastUsedTime slot (s.curTime + 1),
      curTime := s.curTime + 1 }
    let s2 := if 0 ≤ s.inverseMapper slot then
        { s1 with mapper := Function.update s1.mapper (s.inverseMapper slot).toNat (-1) }
      else s1
    (false, s.poolv slot,
      { s2 with mapper := Function.update s2.mapper idx (slot : ℤ),
                inverseMapper := Function.update s2.inverseMapper slot (idx : ℤ) })

/-- `LRUPool::ResetSize`: `CHECK(cache_size_ >= 2)` aborts (`none`) before the
clamp to `total_size`; otherwise the maps are reset. -/
def ResetSize (cacheSize totalSize : ℕ) : Option State :=
  if cacheSize < 2 then none
  else
    let cz := min cacheSize totalSize
    some { poolv := fun _ => 0, cacheSize := cz, totalSize := totalSize,
           isEnough := decide (cz = totalSize),
           mapper := fun _ => -1, inverseMapper := fun _ => -1,
           lastUsedTime := fun _ => 0, curTime := 0 }

theorem argMin_foldl_spec (f : ℕ → ℕ) (l : List ℕ) (b : ℕ) :
    (l.foldl (fun best i => if f i < f best then i else best) b = b ∨
      l.foldl (fun best i => if f i < f best then i else best) b ∈ l) ∧
    f (l.foldl (fun best i => if f i < f best then i else best) b) ≤ f b ∧
    ∀ m ∈ l, f (l.foldl (fun best i => if f i < f best then i else best) b) ≤ f m := by
  induction l generalizing b with
  | nil => exact ⟨Or.inl rfl, le_refl _, by simp⟩
  | cons x xs ih =>
    simp only [List.foldl_cons, List.mem_cons]
    by_cases h : f x < f b
    · rcases ih x with ⟨hmem, hle, hmin⟩
      rw [if_pos h]
      refine ⟨?_, le_trans hle (le_of_lt h), ?_⟩
      · rcases hmem with h1 | h1
        · exact Or.inr (Or.inl h1)
        · exact Or.inr (Or.inr h1)
      · rintro m (rfl | hm)
        · exact hle
        · exact hmin m hm
    · rcases ih b with ⟨hmem, hle, hmin⟩
      rw [if_neg h]
      refine ⟨?_, hle, ?_⟩
      · rcases hmem with h1 | h1
        · exact Or.inl h1
        · exact Or.inr (Or.inr h1)
      · rintro m (rfl | hm)
        · exact le_trans hle (le_of_not_lt h)
        · exact hmin m hm

theorem argMin_lt (f : ℕ → ℕ) (n : ℕ) (h : 0 < n) : argMin f n < n := by
  rcases (argMin_foldl_spec f (List.range n) 0).1 with h1 | h1
  · rw [argMin, h1]; exact h
  · exact List.mem_range.mp h1

theorem argMin_isMin (f : ℕ → ℕ) (n : ℕ) : ∀ m < n, f (argMin f n) ≤ f m :=
  fun m hm => (argMin_foldl_spec f (List.range n) 0).2.2 m (List.mem_range.mpr hm)

/-- C6: for a pool whose cache is smaller than its total size
(`is_enough_ = false`), `Get idx` hits exactly when `idx` is mapped; a hit
touches the mapped slot's `last_used_time` with the freshly incremented
counter; a miss evicts the slot with minimal `last_used_time`, unmaps that
slot's previous index, installs `idx` there, stamps the counter and returns
`false`; when the cache covers all indices (`is_enough_ = true`) the pool is
indexed directly with no state change; and `ResetSize` rejects exactly the
cache sizes below 2. -/
theorem lru_pool_spec (s : State) (idx : ℕ) :
    (s.isEnough = false →
      (((Get idx s).1 = true) ↔ 0 ≤ s.mapper idx) ∧
      (0 ≤ s.mapper idx →
        (Get idx s).2.2.lastUsedTime (s.mapper idx).toNat = s.curTime + 1 ∧
        (Get idx s).2.2.curTime = s.curTime + 1 ∧
        (Get idx s).2.2.mapper = s.mapper) ∧
      (s.mapper idx < 0 →
        (Get idx s).1 = false ∧
        (Get idx s).2.2.mapper idx = (argMin s.lastUsedTime s.cacheSize : ℤ) ∧
        (Get idx s).2.2.inverseMapper (argMin s.lastUsedTime s.cacheSize) = (idx : ℤ) ∧
        (Get idx s).2.2.lastUsedTime (argMin s.lastUsedTime s.cacheSize) = s.curTime + 1 ∧
        (Get idx s).2.2.curTime = s.curTime + 1 ∧
        (∀ j : ℕ, (j : ℤ) = s.inverseMapper (argMin s.lastUsedTime s.cacheSize) →
          j ≠ idx → (Get idx s).2.2.mapper j = -1) ∧
        (∀ m < s.cacheSize,
          s.lastUsedTime (argMin s.lastUsedTime s.cacheSize) ≤ s.lastUsedTime m) ∧
        (0 < s.cacheSize → argMin s.lastUsedTime s.cacheSize < s.cacheSize))) ∧
    (s.isEnough = true → Get idx s = (true, s.poolv idx, s)) ∧
    (∀ cacheSize totalSize : ℕ,
      ResetSize cacheSize totalSize = none ↔ cacheSize < 2) := by
  refine ⟨fun hne => ⟨?_, fun hmap => ?_, fun hmiss => ?_⟩, fun he => ?_, fun cz tz => ?_⟩
  · constructor
    · intro htrue
      by_contra hneg
      push_neg at hneg
      rw [Get, if_neg (by simp [hne]), if_neg (not_le.mpr hneg)] at htrue
      simp at htrue
    · intro hmap
      rw [Get, if_neg (by simp [hne]), if_pos hmap]
  · rw [Get, if_neg (by simp [hne]), if_pos hmap]
    exact ⟨by simp [Function.update_same], rfl, rfl⟩
  · rw [Get, if_neg (by simp [hne]), if_neg (not_le.mpr hmiss)]
    dsimp only
    by_cases hinv : 0 ≤ s.inverseMapper (argMin s.lastUsedTime s.cacheSize)
    · rw [if_pos hinv]
      refine ⟨rfl, ?_, ?_, ?_, rfl, ?_, argMin_isMin _ _, argMin_lt _ _⟩
      · simp [Function.update_same]
      · simp [Function.update_same]
      · simp [Function.update_same]
      · intro j hj hjne
        have hto : (s.inverseMapper (argMin s.lastUsedTime s.cacheSize)).toNat = j := by
          rw [← hj]; exact Int.toNat_ofNat j
        simp only [Function.update_noteq hjne, hto, Function.update_same]
    · rw [if_neg hinv]
      refine ⟨rfl, ?_, ?_, ?_, rfl, ?_, argMin_isMin _ _, argMin_lt _ _⟩
      · simp [Function.update_same]
      · simp [Function.update_same]
      · simp [Function.update_same]
      · intro j hj hjne
        exact absurd (by rw [← hj]; exact Int.ofNat_nonneg j) hinv
  · rw [Get, if_pos he]
  · rw [ResetSize]
    by_cases h : cz < 2
    · simp [h]
    · simp [h]

/-- Witness for C6: a concrete clamped pool (cache 2, total 3, index 2
currently unmapped, slot 1 least recently used) misses, evicts slot 1 and
remaps it to index 2; `ResetSize 1 5` is rejected. -/
theorem lru_pool_spec_witness :
    (Get 2 { poolv := fun _ => 0, cacheSize := 2, totalSize := 3,
             isEnough := false,
             mapper := fun i => if i = 0 then 0 else if i = 1 then 1 else -1,
             inverseMapper := fun i => if i = 0 then 0 else 1,
             lastUsedTime := fun i => if i = 0 then 5 else 3,
             curTime := 5 }).1 = false ∧
    (Get 2 { poolv := fun _ => 0, cacheSize := 2, totalSize := 3,
             isEnough := false,
             mapper := fun i => if i = 0 then 0 else if i = 1 then 1 else -1,
             inverseMapper := fun i => if i = 0 then 0 else 1,
             lastUsedTime := fun i => if i = 0 then 5 else 3,
             curTime := 5 }).2.2.mapper 2 = 1 ∧
    ResetSize 1 5 = none := by
  have h := lru_pool_spec
    { poolv := fun _ => 0, cacheSize := 2, totalSize := 3,
      isEnough := false,
      mapper := fun i => if i = 0 then 0 else if i = 1 then 1 else -1,
      inverseMapper := fun i => if i = 0 then 0 else 1,
      lastUsedTime := fun i => if i = 0 then 5 else 3,
      curTime := 5 } 2
  have hm := (h.1 rfl).2.2 (by decide)
  refine ⟨hm.1, ?_, (h.2.2 1 5).mpr (by decide)⟩
  have harg : argMin (fun i => if i = 0 then 5 else 3) 2 = 1 := by decide
  have := hm.2.1
  rw [harg] at this
  exact this

end LightGBM.LRUPool

namespace LightGBM.Metadata

/-! ## Metadata::SetQueryBoundaries (src/io/metadata.cpp) and the query
boundary invariant (spec §3, include/LightGBM/dataset.h)

`data_size_t` values are embedded as `ℤ`.  The relevant state is
`num_data_`, `query_boundaries_`, `num_queries_`; weights are absent so
`LoadQueryWeights` is a no-op on this state. -/

structure MetaState where
  numData : ℕ
  queryBoundaries : List ℤ
  numQueries : ℕ
deriving DecidableEq

/-- `Metadata::SetQueryBoundaries`: clears on empty input; aborts
(`Log::Fatal`) when the supplied values do not sum to `num_data_`;
otherwise stores `num_queries_ = len` and copies the `len` supplied values
verbatim into `query_boundaries_`. -/
def setQueryBoundaries (s : MetaState) (qb : List ℤ) : Except String MetaState :=
  if qb.length = 0 then
    .ok { s with queryBoundaries := [], numQueries := 0 }
  else if (s.numData : ℤ) ≠ qb.sum then
    .error "sum of query counts is not same with #data"
  else
    .ok { s with numQueries := qb.length, queryBoundaries := qb }

/-- `Dataset::SetIntField` dispatches field names "query" and "group" to
`Metadata::SetQueryBoundaries` and returns `false` for any other name. -/
def setIntField (s : MetaState) (name : String) (fieldData : List ℤ) :
    Except String (Bool × MetaState) :=
  if name = "query" ∨ name = "group" then
    (setQueryBoundaries s fieldData).map (fun s' => (true, s'))
  else
    .ok (false, s)

/-- The documented Dataset invariant (spec §3; dataset.h: "The documents of
i-th query is in [query_boundaries[i], query_boundaries[i+1])"): the stored
array has `num_queries + 1` entries, starts at 0, is strictly increasing and
ends at `num_data`. -/
abbrev QueryBoundaryInvariant (numData numQueries : ℕ) (qb : List ℤ) : Prop :=
  qb.length = numQueries + 1 ∧ qb.head? = some 0 ∧
  List.Chain' (· < ·) qb ∧ qb.getLast? = some (numData : ℤ)

/-- C8 (code bug): for `num_data = 3` and supplied per-query counts `[1, 2]`
(which sum to 3, so the call succeeds), `Dataset::SetIntField "query"`
stores `query_boundaries_ = [1, 2]` with `num_queries_ = 2` — the raw
counts, not the cumulative boundary array `[0, 1, 3]` — so the stored state
violates every clause of the documented boundary invariant. -/
theorem setQueryBoundaries_stores_counts :
    setIntField ⟨3, [], 0⟩ "query" [1, 2]
      = .ok (true, ⟨3, [1, 2], 2⟩) ∧
    ¬ QueryBoundaryInvariant 3 2 [1, 2] ∧
    QueryBoundaryInvariant 3 2 [0, 1, 3] := by
  refine ⟨rfl, fun h => absurd h.1 (by decide), rfl, rfl, ?_, rfl⟩
  norm_num [List.chain'_cons]

end LightGBM.Metadata

namespace LightGBM.GBDT

/-! ## GBDT::Bagging, query branch (boosting/gbdt.cpp)

Bagging is performed when the bagging buffers exist (allocated in
`GBDT::Init` iff `bagging_fraction < 1 ∧ bagging_freq > 0`) and
`iter % bagging_freq == 0`.  With query boundaries present, whole queries
are drawn: for each query `i` in order, it joins the bag iff
`NextDouble() < (bag_query_cnt - cur_left_query_cnt)/(num_query - i)`.
The random stream is an input `rand : ℕ → ℚ`; the `static_cast<data_size_t>`
of `num_query * bagging_fraction` is C truncation toward zero. -/

/-- C-style truncation of a rational toward zero (`static_cast<int>`). -/
def ratTruncInt (q : ℚ) : ℤ := q.num / (q.den : ℤ)

/-- The row ids of query `q`: `[qb q, qb (q+1))`. -/
def queryRows (qb : ℕ → ℕ) (q : ℕ) : List ℕ := List.range' (qb q) (qb (q + 1) - qb q)

/-- The bagging loop over queries `0 .. n-1`; state is
`(cur_left_query_cnt, bag_data_indices, out_of_bag_data_indices)`. -/
def bagLoop (qb : ℕ → ℕ) (rand : ℕ → ℚ) (numQuery : ℕ) (bagQueryCnt : ℤ) :
    ℕ → ℕ × List ℕ × List ℕ
  | 0 => (0, [], [])
  | i + 1 =>
    let st := bagLoop qb rand numQuery bagQueryCnt i
    let prob : ℚ := ((bagQueryCnt - st.1 : ℤ) : ℚ) / ((numQuery - i : ℕ) : ℚ)
    if rand i < prob then
      (st.1 + 1, st.2.1 ++ queryRows qb i, st.2.2)
    else
      (st.1, st.2.1, st.2.2 ++ queryRows qb i)

/-- `GBDT::Bagging` (query branch): `none` when bagging is not due. -/
def baggingByQueries (fraction : ℚ) (freq : ℕ) (iter numQuery : ℕ)
    (qb : ℕ → ℕ) (rand : ℕ → ℚ) : Option (List ℕ × List ℕ) :=
  if (fraction < 1 ∧ 0 < freq) ∧ iter % freq = 0 then
    let bagQueryCnt : ℤ := ratTruncInt ((numQuery : ℚ) * fraction)
    let st := bagLoop qb rand numQuery bagQueryCnt numQuery
    some (st.2.1, st.2.2)
  else none

theorem bagLoop_structure (qb : ℕ → ℕ) (rand : ℕ → ℚ) (numQuery : ℕ)
    (bagQueryCnt : ℤ) (n : ℕ) :
    ∃ sel : ℕ → Bool,
      (bagLoop qb rand numQuery bagQueryCnt n).2.1
        = (((List.range n).filter sel).map (queryRows qb)).flatten ∧
      (bagLoop qb rand numQuery bagQueryCnt n).2.2
        = (((List.range n).filter (fun q => !sel q)).map (queryRows qb)).flatten := by
  induction n with
  | zero => exact ⟨fun _ => true, rfl, rfl⟩
  | succ n ih =>
    rcases ih with ⟨sel, hbag, hoob⟩
    by_cases hd : rand n <
        ((bagQueryCnt - (bagLoop qb rand numQuery bagQueryCnt n).1 : ℤ) : ℚ)
          / ((numQuery - n : ℕ) : ℚ)
    · refine ⟨fun q => if q = n then true else sel q, ?_, ?_⟩
      · have hfil : (List.range n).filter (fun q => if q = n then true else sel q)
            = (List.range n).filter sel :=
          List.filter_congr (fun q hq => by
            rw [if_neg (Nat.ne_of_lt (List.mem_range.mp hq))])
        rw [bagLoop]
        simp only [if_pos hd, List.range_succ, List.filter_append, List.map_append,
          List.flatten_append, hbag, hfil]
        simp
      · have hfil : (List.range n).filter (fun q => !(if q = n then true else sel q))
            = (List.range n).filter (fun q => !sel q) :=
          List.filter_congr (fun q hq => by
            rw [if_neg (Nat.ne_of_lt (List.mem_range.mp hq))])
        rw [bagLoop]
        simp only [if_pos hd, List.range_succ, List.filter_append, List.map_append,
          List.flatten_append, hoob, hfil]
        simp
    · refine ⟨fun q => if q = n then false else sel q, ?_, ?_⟩
      · have hfil : (List.range n).filter (fun q => if q = n then false else sel q)
            = (List.range n).filter sel :=
          List.filter_congr (fun q hq => by
            rw [if_neg (Nat.ne_of_lt (List.mem_range.mp hq))])
        rw [bagLoop]
        simp only [if_neg hd, List.range_succ, List.filter_append, List.map_append,
          List.flatten_append, hbag, hfil]
        simp
      · have hfil : (List.range n).filter (fun q => !(if q = n then false else sel q))
            = (List.range n).filter (fun q => !sel q) :=
          List.filter_congr (fun q hq => by
            rw [if_neg (Nat.ne_of_lt (List.mem_range.mp hq))])
        rw [bagLoop]
        simp only [if_neg hd, List.range_succ, List.filter_append, List.map_append,
          List.flatten_append, hoob, hfil]
        simp

theorem qb_mono_chain (qb : ℕ → ℕ) (numQuery : ℕ)
    (hmono : ∀ q < numQuery, qb q ≤ qb (q + 1)) :
    ∀ a b, a ≤ b → b ≤ numQuery → qb a ≤ qb b := by
  intro a b hab hbn
  induction b with
  | zero => simp [Nat.le_zero.mp hab]
  | succ b ih =>
    rcases Nat.lt_or_ge a (b + 1) with h | h
    · exact le_trans (ih (Nat.lt_succ_iff.mp h) (le_trans (Nat.le_succ b) hbn))
        (hmono b (Nat.lt_of_succ_le hbn))
    · have : a = b + 1 := le_antisymm hab h
      rw [this]

theorem queryRows_flatten (qb : ℕ → ℕ) (numQuery : ℕ)
    (hmono : ∀ q < numQuery, qb q ≤ qb (q + 1)) :
    ∀ n ≤ numQuery,
      (((List.range n).map (queryRows qb)).flatten)
        = List.range' (qb 0) (qb n - qb 0) := by
  intro n hn
  induction n with
  | zero => simp
  | succ n ih =>
    rw [List.range_succ, List.map_append, List.flatten_append,
      ih (le_trans (Nat.le_succ n) hn)]
    simp only [List.map_cons, List.map_nil, List.flatten_cons, List.flatten_nil,
      List.append_nil, queryRows]
    have h0n : qb 0 ≤ qb n := qb_mono_chain qb numQuery hmono 0 n (Nat.zero_le n)
      (le_trans (Nat.le_succ n) hn)
    have hn1 : qb n ≤ qb (n + 1) := hmono n (Nat.lt_of_succ_le hn)
    have := List.range'_append (qb 0) (qb n - qb 0) (qb (n + 1) - qb n) 1
    rw [one_mul, Nat.add_sub_cancel' h0n] at this
    rw [this]
    congr 1
    omega

theorem queryRows_disjoint (qb : ℕ → ℕ) (numQuery : ℕ)
    (hmono : ∀ q < numQuery, qb q ≤ qb (q + 1)) (a b : ℕ)
    (ha : a < numQuery) (hb : b < numQuery) (hne : a ≠ b) (j : ℕ)
    (hja : j ∈ queryRows qb a) : j ∉ queryRows qb b := by
  intro hjb
  rw [queryRows, List.mem_range'_1] at hja hjb
  obtain ⟨hja1, hja2⟩ := hja
  obtain ⟨hjb1, hjb2⟩ := hjb
  have hma := hmono a ha
  have hmb := hmono b hb
  rcases Nat.lt_or_ge a b with h | h
  · have : qb (a + 1) ≤ qb b := qb_mono_chain qb numQuery hmono (a + 1) b h (le_of_lt hb)
    omega
  · have hba : b < a := lt_of_le_of_ne h (Ne.symm hne)
    have : qb (b + 1) ≤ qb a := qb_mono_chain qb numQuery hmono (b + 1) a hba (le_of_lt ha)
    omega

/-- C4: whenever bagging is performed over a dataset with query boundaries
(`qb 0 = 0`, monotone, `qb numQuery = numData`), the bag is a union of
whole queries — for every query, either all its rows are in the bag or none
are — and the bag together with the out-of-bag array holds every row index
in `[0, numData)` exactly once. -/
theorem bagging_whole_queries (fraction : ℚ) (freq : ℕ) (iter numData numQuery : ℕ)
    (qb : ℕ → ℕ) (rand : ℕ → ℚ) (bag oob : List ℕ)
    (h0 : qb 0 = 0) (hN : qb numQuery = numData)
    (hmono : ∀ q < numQuery, qb q ≤ qb (q + 1))
    (hsome : baggingByQueries fraction freq iter numQuery qb rand = some (bag, oob)) :
    (bag ++ oob).Perm (List.range numData) ∧
    (∀ q < numQuery,
      (∀ j ∈ queryRows qb q, j ∈ bag) ∨ (∀ j ∈ queryRows qb q, j ∉ bag)) := by
  rw [baggingByQueries] at hsome
  by_cases hdue : (fraction < 1 ∧ 0 < freq) ∧ iter % freq = 0
  swap
  · rw [if_neg hdue] at hsome; exact absurd hsome (by simp)
  rw [if_pos hdue] at hsome
  rcases bagLoop_structure qb rand numQuery (ratTruncInt ((numQuery : ℚ) * fraction))
    numQuery with ⟨sel, hbag, hoob⟩
  have hbag' : bag = (((List.range numQuery).filter sel).map (queryRows qb)).flatten := by
    have := congrArg (fun p => p.1) (Option.some.inj hsome)
    simp only at this
    rw [← this, hbag]
  have hoob' : oob
      = (((List.range numQuery).filter (fun q => !sel q)).map (queryRows qb)).flatten := by
    have := congrArg (fun p => p.2) (Option.some.inj hsome)
    simp only at this
    rw [← this, hoob]
  constructor
  · rw [hbag', hoob', ← List.flatten_append, ← List.map_append]
    have hperm : ((List.range numQuery).filter sel
        ++ (List.range numQuery).filter (fun q => !sel q)).Perm (List.range numQuery) :=
      List.filter_append_perm sel (List.range numQuery)
    have := (hperm.map (queryRows qb)).flatten
    rw [queryRows_flatten qb numQuery hmono numQuery (le_refl _), h0, hN, Nat.sub_zero,
      ← List.range_eq_range'] at this
    exact this
  · intro q hq
    by_cases hsel : sel q = true
    · left
      intro j hj
      rw [hbag']
      rw [List.mem_flatten]
      refine ⟨queryRows qb q, List.mem_map_of_mem _ ?_, hj⟩
      rw [List.mem_filter]
      exact ⟨List.mem_range.mpr hq, hsel⟩
    · right
      intro j hj hjbag
      rw [hbag', List.mem_flatten] at hjbag
      rcases hjbag with ⟨rows, hrows, hjrows⟩
      rw [List.mem_map] at hrows
      rcases hrows with ⟨q', hq', rfl⟩
      rw [List.mem_filter, List.mem_range] at hq'
      have hne : q' ≠ q := by
        rintro rfl
        exact hsel hq'.2
      exact queryRows_disjoint qb numQuery hmono q' q hq'.1 hq hne j hjrows hj

/-- Witness for C4 on the spec's scenario D layout: three queries of ten
rows, `bagging_fraction = 2/3`, `bagging_freq = 1`, a concrete random
stream; the bag and out-of-bag arrays together are a permutation of
`[0, 30)`. -/
theorem bagging_whole_queries_witness :
    ((List.range' 0 10 ++ List.range' 20 10) ++ List.range' 10 10).Perm
      (List.range 30) := by
  have hsome : baggingByQueries (2/3) 1 0 3 (fun q => 10 * q)
      (fun i => if i = 0 then 1/2 else if i = 1 then 9/10 else 0)
      = some (List.range' 0 10 ++ List.range' 20 10, List.range' 10 10) := by
    norm_num [baggingByQueries, bagLoop, ratTruncInt, queryRows]
  have h := bagging_whole_queries (2/3) 1 0 30 3 (fun q => 10 * q)
    (fun i => if i = 0 then 1/2 else if i = 1 then 9/10 else 0)
    (List.range' 0 10 ++ List.range' 20 10) (List.range' 10 10)
    (by norm_num) (by norm_num) (fun q hq => by interval_cases q <;> norm_num) hsome
  exact h.1

end LightGBM.GBDT

namespace LightGBM.ModelIO

/-! ## Model loading (GBDT::ModelsFromString, Boosting::CreateBoosting)

Strings are embedded as `List Char`.  `Common::Split` on a delimiter
character, `std::string::find` (substring search) and `Common::Atoi` /
`Common::Atof` are embedded below; `Common::Atof` can terminate fatally
(`Log::Fatal("Unknown token ...")`), which is the `.error` result.
`new Tree(tree_str)` (tree deserialisation) is not part of the sources;
tree blocks are collected verbatim. -/

abbrev Str := List Char

/-- `Common::Split(c_str, delimiter)`: pieces between delimiter occurrences,
including a final (possibly empty) piece. -/
def splitCharAux (d : Char) : Str → Str → List Str
  | [], acc => [acc.reverse]
  | c :: rest, acc =>
    if c = d then acc.reverse :: splitCharAux d rest []
    else splitCharAux d rest (c :: acc)

def splitChar (d : Char) (s : Str) : List Str := splitCharAux d s []

/-- `std::string::find(pat) != npos`: `pat` occurs as a contiguous substring. -/
def containsSub (pat : Str) : Str → Bool
  | [] => pat.isEmpty
  | c :: rest => pat.isPrefixOf (c :: rest) || containsSub pat rest

def isDigit (c : Char) : Bool := '0' ≤ c && c ≤ '9'

/-- Leading-space skipping (`while (*p == ' ') ++p`). -/
def skipSpaces : Str → Str
  | ' ' :: rest => skipSpaces rest
  | s => s

/-- Digit-accumulation loop of `Common::Atoi`. -/
def atoiDigits : Str → ℤ → ℤ
  | c :: rest, acc =>
    if isDigit c then atoiDigits rest (acc * 10 + ((c.toNat - '0'.toNat : ℕ) : ℤ))
    else acc
  | [], acc => acc

/-- `Common::Atoi`: optional spaces, optional sign, leading digits. -/
def atoi (s : Str) : ℤ :=
  match skipSpaces s with
  | '-' :: rest => -(atoiDigits rest 0)
  | '+' :: rest => atoiDigits rest 0
  | s1 => atoiDigits s1 0

/-- Integer-part loop of `Common::Atof`. -/
def atofDigits : Str → ℚ → ℚ × Str
  | c :: rest, acc =>
    if isDigit c then atofDigits rest (acc * 10 + ((c.toNat - '0'.toNat : ℕ) : ℚ))
    else (acc, c :: rest)
  | [], acc => (acc, [])

/-- Fractional-part loop of `Common::Atof` (`value += digit / pow10`). -/
def atofFrac : Str → ℚ → ℚ → ℚ × Str
  | c :: rest, acc, pow10 =>
    if isDigit c then
      atofFrac rest (acc + ((c.toNat - '0'.toNat : ℕ) : ℚ) / pow10) (pow10 * 10)
    else (acc, c :: rest)
  | [], acc, _ => (acc, [])

/-- Exponent-digit loop of `Common::Atof`. -/
def atofExpDigits : Str → ℕ → ℕ × Str
  | c :: rest, acc =>
    if isDigit c then atofExpDigits rest (acc * 10 + (c.toNat - '0'.toNat))
    else (acc, c :: rest)
  | [], acc => (acc, [])

/-- The three scaling loops of `Common::Atof` (factors 1E50, 1E8, 10),
applied to the exponent already clamped at 308. -/
def expScale (e : ℕ) : ℚ :=
  if 50 ≤ e then 10 ^ (50 : ℕ) * expScale (e - 50)
  else if 8 ≤ e then 10 ^ (8 : ℕ) * expScale (e - 8)
  else 10 ^ e
termination_by e
decreasing_by all_goals omega

/-- Length of the token scanned by the fallback branch of `Common::Atof`
(up to NUL, space, tab, comma, newline, carriage return or colon). -/
def tokenLen : Str → ℕ
  | [] => 0
  | c :: rest =>
    if c = ' ' || c = '\t' || c = ',' || c = '\n' || c = '\r' || c = ':' then 0
    else tokenLen rest + 1

/-- `Common::Atof`: spaces, sign, then either a numeric literal
(digits, optional fraction, optional exponent) or a token that must be one
of na/nan/inf/infinity — any other non-empty token is `Log::Fatal`. -/
def atof (s : Str) : Except Str ℚ :=
  let p0 := skipSpaces s
  let (sign, p1) : ℚ × Str :=
    match p0 with
    | '-' :: rest => (-1, rest)
    | '+' :: rest => (1, rest)
    | _ => (1, p0)
  match p1 with
  | c :: _ =>
    if isDigit c || c = '.' || c = 'e' || c = 'E' then
      let (value, p2) := atofDigits p1 0
      let (value, p3) :=
        match p2 with
        | '.' :: rest => atofFrac rest value 10
        | _ => (value, p2)
      let (frac, scale) : Bool × ℚ :=
        match p3 with
        | 'e' :: rest | 'E' :: rest =>
          let (fr, p4) : Bool × Str :=
            match rest with
            | '-' :: r => (true, r)
            | '+' :: r => (false, r)
            | _ => (false, rest)
          let (expon, _) := atofExpDigits p4 0
          (fr, expScale (min expon 308))
        | _ => (false, 1)
      .ok (sign * (if frac then value / scale else value * scale))
    else
      let cnt := tokenLen p1
      if cnt = 0 then .ok 0
      else
        let tok := (p1.take cnt).map Char.toLower
        if tok = ("na".toList) ∨ tok = ("nan".toList) then .ok 0
        else if tok = ("inf".toList) ∨ tok = ("infinity".toList) then
          .ok (sign * 10 ^ (308 : ℕ))
        else .error tok
  | [] =>
    let cnt := tokenLen p1
    if cnt = 0 then .ok 0
    else .ok 0

/-- First line containing `key` as a substring (the scan loops of
`GBDT::ModelsFromString`). -/
def findLine (key : Str) (lines : List Str) : Option Str :=
  lines.find? (fun l => containsSub key l)

/-- The value part `strs[1]` of a header line after `Common::Split` on `'='`
(present whenever the line contains `'='`). -/
def headerValue (l : Str) : Str := (splitChar '=' l).getD 1 []

/-- Collect the tree blocks: each line containing `Tree=` starts a block of
the following lines up to the next `Tree=` line, joined with newlines
(`Common::Join`). -/
def collectTrees : List Str → List Str
  | [] => []
  | l :: rest =>
    if containsSub ("Tree=".toList) l then
      List.intercalate ['\n'] (rest.takeWhile (fun l' => !containsSub ("Tree=".toList) l'))
        :: collectTrees (rest.dropWhile (fun l' => !containsSub ("Tree=".toList) l'))
    else collectTrees rest
termination_by lines => lines.length
decreasing_by
  · simp only [List.length_cons]
    exact Nat.lt_succ_of_le (List.dropWhile_sublist _).length_le
  · simp [Nat.lt_succ_self]

structure LoadedModel where
  numClass : ℤ
  labelIdx : ℤ
  maxFeatureIdx : ℤ
  sigmoid : ℚ
  treeBlocks : List Str
  numUsedModel : ℤ
deriving DecidableEq

/-- `GBDT::ModelsFromString` over the `'\n'`-split lines of the model
string: the three required headers in order (each missing one is
`Log::Fatal`), the optional `sigmoid=` header (default `-1`), then the tree
blocks and `num_used_model_ = models_.size() / num_class_`. -/
def modelsFromString (lines : List Str) : Except Str LoadedModel :=
  match findLine ("num_class=".toList) lines with
  | none => .error ("Model file doesn't specify the number of classes".toList)
  | some l1 =>
    match findLine ("label_index=".toList) lines with
    | none => .error ("Model file doesn't specify the label index".toList)
    | some l2 =>
      match findLine ("max_feature_idx=".toList) lines with
      | none => .error ("Model file doesn't specify max_feature_idx".toList)
      | some l3 =>
        let sigRes : Except Str ℚ :=
          match findLine ("sigmoid=".toList) lines with
          | none => .ok (-1)
          | some l4 => atof (headerValue l4)
        match sigRes with
        | .error e => .error e
        | .ok sig =>
          let trees := collectTrees lines
          .ok { numClass := atoi (headerValue l1),
                labelIdx := atoi (headerValue l2),
                maxFeatureIdx := atoi (headerValue l3),
                sigmoid := sig,
                treeBlocks := trees,
                numUsedModel := (trees.length : ℤ) / atoi (headerValue l1) }

inductive BoostingType where
  | kGBDT | kDART | kUnknow
deriving DecidableEq

/-- `GetBoostingTypeFromModelFile`: decided by the model file's first line. -/
def getBoostingTypeFromFirstLine (l : Str) : BoostingType :=
  if l = ("gbdt".toList) then .kGBDT
  else if l = ("dart".toList) then .kDART
  else .kUnknow

/-- `Boosting::CreateBoosting(type, filename)` with a non-empty filename:
fatal when the type named in the file differs from the requested one;
otherwise the file's lines are loaded (`LoadFileToBoosting`).  The
`kUnknow = kUnknow` corner returns no model without loading. -/
def createBoosting (ty : BoostingType) (firstLine : Str) (lines : List Str) :
    Except Str (Option LoadedModel) :=
  if getBoostingTypeFromFirstLine firstLine = ty then
    match ty with
    | .kGBDT => (modelsFromString lines).map some
    | .kDART => (modelsFromString lines).map some
    | .kUnknow => .ok none
  else
    .error ("Boosting type in parameter is not the same as the type in the model file".toList)

end LightGBM.ModelIO

namespace LightGBM.ModelIO

theorem findLine_eq_none_iff (key : Str) (lines : List Str) :
    findLine key lines = none ↔ ∀ l ∈ lines, containsSub key l = false := by
  rw [findLine, List.find?_eq_none]
  simp

theorem findLine_isSome (key : Str) (lines : List Str)
    (h : ∃ l ∈ lines, containsSub key l = true) :
    ∃ l', findLine key lines = some l' := by
  rw [findLine]
  rcases Option.isSome_iff_exists.mp (List.find?_isSome.mpr h) with ⟨l', hl'⟩
  exact ⟨l', hl'⟩

theorem collectTrees_eq_nil (lines : List Str)
    (h : ∀ l ∈ lines, containsSub ("Tree=".toList) l = false) :
    collectTrees lines = [] := by
  induction lines with
  | nil => rw [collectTrees]
  | cons l rest ih =>
    have hl : containsSub ['T', 'r', 'e', 'e', '='] l = false :=
      h l (List.mem_cons_self l rest)
    rw [collectTrees, if_neg (by simp [hl])]
    exact ih (fun l' hl' => h l' (List.mem_cons_of_mem l hl'))

/-- C7 counterexample to the claim as stated: this model string contains all
three required headers, yet loading terminates fatally — its `sigmoid=` line
carries the token `foo`, which `Common::Atof` rejects with
`Log::Fatal("Unknown token ...")`. -/
theorem modelsFromString_headers_not_sufficient :
    ((∃ l ∈ [("num_class=1".toList), ("label_index=0".toList),
        ("max_feature_idx=3".toList), ("sigmoid=foo".toList)],
        containsSub ("num_class=".toList) l = true) ∧
     (∃ l ∈ [("num_class=1".toList), ("label_index=0".toList),
        ("max_feature_idx=3".toList), ("sigmoid=foo".toList)],
        containsSub ("label_index=".toList) l = true) ∧
     (∃ l ∈ [("num_class=1".toList), ("label_index=0".toList),
        ("max_feature_idx=3".toList), ("sigmoid=foo".toList)],
        containsSub ("max_feature_idx=".toList) l = true)) ∧
    (modelsFromString [("num_class=1".toList), ("label_index=0".toList),
        ("max_feature_idx=3".toList), ("sigmoid=foo".toList)]).toOption = none := by
  decide

/-- C7 (amended): loading terminates fatally when the model text lacks any
of the three required headers, and when the boosting kind named on the model
file's first line differs from the requested kind; every model string that
contains the three headers, holds no `Tree=` block, and whose `sigmoid=`
line (if any) parses as a number loads successfully; a missing `sigmoid=`
line defaults `sigmoid` to `-1` rather than failing. -/
theorem modelsFromString_header_spec (lines : List Str) (ty : BoostingType)
    (firstLine : Str) :
    (((¬ ∃ l ∈ lines, containsSub ("num_class=".toList) l = true) ∨
      (¬ ∃ l ∈ lines, containsSub ("label_index=".toList) l = true) ∨
      (¬ ∃ l ∈ lines, containsSub ("max_feature_idx=".toList) l = true)) →
      (modelsFromString lines).toOption = none) ∧
    (getBoostingTypeFromFirstLine firstLine ≠ ty →
      createBoosting ty firstLine lines
        = .error ("Boosting type in parameter is not the same as the type in the model file".toList)) ∧
    ((∃ l ∈ lines, containsSub ("num_class=".toList) l = true) →
     (∃ l ∈ lines, containsSub ("label_index=".toList) l = true) →
     (∃ l ∈ lines, containsSub ("max_feature_idx=".toList) l = true) →
     (∀ l ∈ lines, containsSub ("Tree=".toList) l = false) →
      ((∀ l ∈ lines, containsSub ("sigmoid=".toList) l = false) →
        ∃ st, modelsFromString lines = .ok st ∧ st.sigmoid = -1 ∧ st.treeBlocks = []) ∧
      (∀ l4 v, findLine ("sigmoid=".toList) lines = some l4 →
        atof (headerValue l4) = .ok v →
        ∃ st, modelsFromString lines = .ok st ∧ st.sigmoid = v ∧ st.treeBlocks = [])) := by
  refine ⟨fun hmiss => ?_, fun hty => ?_, fun h1 h2 h3 hnt => ⟨fun hnosig => ?_, ?_⟩⟩
  · rw [modelsFromString]
    rcases hmiss with h | h | h
    · rw [show findLine ("num_class=".toList) lines = none from
        (findLine_eq_none_iff _ _).mpr (by simpa using h)]
      rfl
    · cases hfind : findLine ("num_class=".toList) lines with
      | none => rfl
      | some l1 =>
        rw [show findLine ("label_index=".toList) lines = none from
          (findLine_eq_none_iff _ _).mpr (by simpa using h)]
        rfl
    · cases hfind : findLine ("num_class=".toList) lines with
      | none => rfl
      | some l1 =>
        cases hfind2 : findLine ("label_index=".toList) lines with
        | none => rfl
        | some l2 =>
          rw [show findLine ("max_feature_idx=".toList) lines = none from
            (findLine_eq_none_iff _ _).mpr (by simpa using h)]
          rfl
  · rw [createBoosting.eq_def, if_neg hty]
  · rcases findLine_isSome _ _ h1 with ⟨l1, hl1⟩
    rcases findLine_isSome _ _ h2 with ⟨l2, hl2⟩
    rcases findLine_isSome _ _ h3 with ⟨l3, hl3⟩
    simp only [modelsFromString, hl1, hl2, hl3,
      show findLine ("sigmoid=".toList) lines = none from
        (findLine_eq_none_iff _ _).mpr hnosig]
    exact ⟨_, rfl, rfl, collectTrees_eq_nil lines hnt⟩
  · intro l4 v hl4 hv
    rcases findLine_isSome _ _ h1 with ⟨l1, hl1⟩
    rcases findLine_isSome _ _ h2 with ⟨l2, hl2⟩
    rcases findLine_isSome _ _ h3 with ⟨l3, hl3⟩
    simp only [modelsFromString, hl1, hl2, hl3, hl4, hv]
    exact ⟨_, rfl, rfl, collectTrees_eq_nil lines hnt⟩

/-- Witness for C7's amended statement: a header-only model string with no
`sigmoid=` line loads successfully with the default `sigmoid = -1`. -/
theorem modelsFromString_header_spec_witness :
    ∃ st, modelsFromString [("num_class=1".toList), ("label_index=0".toList),
        ("max_feature_idx=3".toList)] = .ok st ∧ st.sigmoid = -1 ∧ st.treeBlocks = [] :=
  ((modelsFromString_header_spec [("num_class=1".toList), ("label_index=0".toList),
      ("max_feature_idx=3".toList)] BoostingType.kGBDT ("gbdt".toList)).2.2
    (by decide) (by decide) (by decide) (by decide)).1 (by decide)

end LightGBM.ModelIO

namespace LightGBM.Boosting

/-! ## DART / GBDT training iterations (boosting/dart.cpp, boosting/gbdt.cpp)

Machine doubles are exact rationals.  A tree is represented by its
prediction functions on the training rows (`α`) and on the validation rows
(`β`; all validation datasets are bundled into one index type, as
`Normalize`/`UpdateScore` apply the same addition to each).

Modelled from the spec (absent headers `tree.h` / `score_updater.h` /
`dart.h`): `Tree::Shrinkage(rate)` multiplies every stored leaf value by
`rate`, so the tree's prediction scales linearly (spec §4.9, §8.7);
`ScoreUpdater::AddScore(tree, class)` adds the tree's prediction on every
row to the class's score block; `UpdateScore` + `UpdateScoreOutOfBag`
together add the new tree's prediction on the full training data (spec
§4.9: out-of-bag rows are scored so the next iteration sees a complete
score vector); per spec §4.10 the drop set is selected before the iteration
(`DroppingTrees`) and `Normalize` runs after the new trees are added, as in
`DART::TrainOneIter`. -/

structure DTree (α β : Type) where
  tr : α → ℚ
  va : β → ℚ

/-- `Tree::Shrinkage(rate)`: predictions scale linearly with the leaf
values. -/
def DTree.shrink {α β : Type} (rate : ℚ) (t : DTree α β) : DTree α β :=
  ⟨fun a => rate * t.tr a, fun b => rate * t.va b⟩

/-- Boosting state: the flattened model array (`models_`, tree of iteration
`i` and class `c` at index `i*C + c`), its size, and the per-class training
and validation score blocks. -/
structure BoostState (α β : Type) where
  models : ℕ → DTree α β
  numModels : ℕ
  trainScore : ℕ → α → ℚ
  validScore : ℕ → β → ℚ

/-- The `for (curr_class = 0; ...; ++curr_class)` loops, sequentially from
class 0. -/
def classLoop {α β : Type} (step : BoostState α β → ℕ → BoostState α β)
    (s : BoostState α β) : ℕ → BoostState α β
  | 0 => s
  | c + 1 => step (classLoop step s c) c

/-- Inner body of `DART::DroppingTrees`: negate the stored tree
(`Shrinkage(-1.0)`) and add it to the training score. -/
def dropStep {α β : Type} (C i : ℕ) (s : BoostState α β) (c : ℕ) : BoostState α β :=
  let idx := i * C + c
  let m := (s.models idx).shrink (-1)
  { s with models := Function.update s.models idx m,
           trainScore := Function.update s.trainScore c
             (fun a => s.trainScore c a + m.tr a) }

/-- `DART::DroppingTrees` over the selected drop indices (the random
selection itself is the input `D`). -/
def droppingTrees {α β : Type} (C : ℕ) (D : List ℕ) (s : BoostState α β) :
    BoostState α β :=
  D.foldl (fun s i => classLoop (dropStep C i) s C) s

/-- `shrinkage_rate_ = 1.0 / (1.0 + drop_index_.size())`. -/
def shrinkageRate (D : List ℕ) : ℚ := 1 / (1 + (D.length : ℚ))

/-- Inner body of `DART::Normalize`: shrink by `shrinkage_rate_`, add to
every validation score, shrink by `-k`, add to the training score. -/
def normalizeStep {α β : Type} (C : ℕ) (k rate : ℚ) (i : ℕ) (s : BoostState α β)
    (c : ℕ) : BoostState α β :=
  let idx := i * C + c
  let m1 := (s.models idx).shrink rate
  let s1 := { s with models := Function.update s.models idx m1,
                     validScore := Function.update s.validScore c
                       (fun b => s.validScore c b + m1.va b) }
  let m2 := m1.shrink (-k)
  { s1 with models := Function.update s1.models idx m2,
            trainScore := Function.update s1.trainScore c
              (fun a => s1.trainScore c a + m2.tr a) }

/-- `DART::Normalize`. -/
def normalize {α β : Type} (C : ℕ) (D : List ℕ) (s : BoostState α β) :
    BoostState α β :=
  D.foldl (fun s i =>
    classLoop (normalizeStep C ((D.length : ℚ)) (shrinkageRate D) i) s C) s

/-- Per-class body shared by `GBDT::TrainOneIter` and `DART::TrainOneIter`:
shrink the freshly trained tree, add it to the training score
(`UpdateScore` via the learner plus `UpdateScoreOutOfBag`) and to every
validation score, and push it onto `models_`. -/
def addTreeStep {α β : Type} (rate : ℚ) (newTrees : ℕ → DTree α β)
    (s : BoostState α β) (c : ℕ) : BoostState α β :=
  let t := (newTrees c).shrink rate
  { s with trainScore := Function.update s.trainScore c
             (fun a => s.trainScore c a + t.tr a),
           validScore := Function.update s.validScore c
             (fun b => s.validScore c b + t.va b),
           models := Function.update s.models s.numModels t,
           numModels := s.numModels + 1 }

/-- One `DART::TrainOneIter` with drop set `D` and learner output
`newTrees` (per class): dropping, per-class training with
`shrinkage_rate_ = 1/(|D|+1)`, then `Normalize`. -/
def dartTrainOneIter {α β : Type} (C : ℕ) (D : List ℕ)
    (newTrees : ℕ → DTree α β) (s : BoostState α β) : BoostState α β :=
  normalize C D (classLoop (addTreeStep (shrinkageRate D) newTrees)
    (droppingTrees C D s) C)

/-- One `GBDT::TrainOneIter`: per-class training with shrinkage
`learning_rate`. -/
def gbdtTrainOneIter {α β : Type} (C : ℕ) (lr : ℚ)
    (newTrees : ℕ → DTree α β) (s : BoostState α β) : BoostState α β :=
  classLoop (addTreeStep lr newTrees) s C

/-- Common shape of the per-class bodies of `DroppingTrees` and
`Normalize`: transform the stored tree at `i*C + c` by `F` and add `G`/`Hv`
of its previous value to the class's training/validation scores. -/
def genStep {α β : Type} (C i : ℕ) (F : DTree α β → DTree α β)
    (G : DTree α β → α → ℚ) (Hv : DTree α β → β → ℚ)
    (s : BoostState α β) (c : ℕ) : BoostState α β :=
  let m := s.models (i * C + c)
  { s with models := Function.update s.models (i * C + c) (F m),
           trainScore := Function.update s.trainScore c
             (fun a => s.trainScore c a + G m a),
           validScore := Function.update s.validScore c
             (fun b => s.validScore c b + Hv m b) }

theorem dropStep_eq_genStep {α β : Type} (C i : ℕ) :
    dropStep (α := α) (β := β) C i
      = genStep C i (fun m => m.shrink (-1)) (fun m a => (m.shrink (-1)).tr a)
          (fun _ _ => 0) := by
  funext s c
  rw [dropStep, genStep]
  congr 1
  rw [show (fun b => s.validScore c b + 0) = s.validScore c by funext b; ring]
  rw [Function.update_eq_self]

theorem normalizeStep_eq_genStep {α β : Type} (C : ℕ) (k rate : ℚ) (i : ℕ) :
    normalizeStep (α := α) (β := β) C k rate i
      = genStep C i (fun m => (m.shrink rate).shrink (-k))
          (fun m a => ((m.shrink rate).shrink (-k)).tr a)
          (fun m b => (m.shrink rate).va b) := by
  funext s c
  rw [normalizeStep, genStep]
  simp only [Function.update_idem]

theorem classLoop_genStep_spec {α β : Type} (C i : ℕ) (F : DTree α β → DTree α β)
    (G : DTree α β → α → ℚ) (Hv : DTree α β → β → ℚ) (s : BoostState α β) (n : ℕ) :
    (∀ c < n, (classLoop (genStep C i F G Hv) s n).models (i * C + c)
        = F (s.models (i * C + c))) ∧
    (∀ idx : ℕ, (∀ c < n, idx ≠ i * C + c) →
      (classLoop (genStep C i F G Hv) s n).models idx = s.models idx) ∧
    (∀ c < n, ∀ a, (classLoop (genStep C i F G Hv) s n).trainScore c a
        = s.trainScore c a + G (s.models (i * C + c)) a) ∧
    (∀ c, n ≤ c → (classLoop (genStep C i F G Hv) s n).trainScore c
        = s.trainScore c) ∧
    (∀ c < n, ∀ b, (classLoop (genStep C i F G Hv) s n).validScore c b
        = s.validScore c b + Hv (s.models (i * C + c)) b) ∧
    (∀ c, n ≤ c → (classLoop (genStep C i F G Hv) s n).validScore c
        = s.validScore c) ∧
    (classLoop (genStep C i F G Hv) s n).numModels = s.numModels := by
  induction n with
  | zero =>
    exact ⟨fun c hc => absurd hc (Nat.not_lt_zero c), fun idx _ => rfl,
      fun c hc => absurd hc (Nat.not_lt_zero c), fun c _ => rfl,
      fun c hc => absurd hc (Nat.not_lt_zero c), fun c _ => rfl, rfl⟩
  | succ n ih =>
    obtain ⟨ihm, ihu, iht, iht', ihv, ihv', ihn⟩ := ih
    refine ⟨?_, ?_, ?_, ?_, ?_, ?_, ?_⟩
    · intro c hc
      rcases Nat.lt_succ_iff_lt_or_eq.mp hc with h | hceq
      · show (genStep C i F G Hv (classLoop _ s n) n).models (i * C + c) = _
        rw [genStep]
        simp only [Function.update_noteq
          (fun heq => (Nat.ne_of_lt h) (Nat.add_left_cancel heq))]
        exact ihm c h
      · subst hceq
        show (genStep C i F G Hv (classLoop _ s c) c).models (i * C + c) = _
        rw [genStep]
        simp only [Function.update_same]
        rw [ihu (i * C + c) (fun c' hc' heq => (Nat.ne_of_lt hc')
          (Nat.add_left_cancel heq.symm))]
    · intro idx hidx
      show (genStep C i F G Hv (classLoop _ s n) n).models idx = _
      rw [genStep]
      simp only [Function.update_noteq (hidx n (Nat.lt_succ_self n))]
      exact ihu idx (fun c hc => hidx c (Nat.lt_succ_of_lt hc))
    · intro c hc a
      rcases Nat.lt_succ_iff_lt_or_eq.mp hc with h | hceq
      · show (genStep C i F G Hv (classLoop _ s n) n).trainScore c a = _
        rw [genStep]
        simp only [Function.update_noteq (Nat.ne_of_lt h)]
        exact iht c h a
      · subst hceq
        show (genStep C i F G Hv (classLoop _ s c) c).trainScore c a = _
        rw [genStep]
        simp only [Function.update_same]
        rw [iht' c (le_refl c),
          ihu (i * C + c) (fun c' hc' heq => (Nat.ne_of_lt hc')
            (Nat.add_left_cancel heq.symm))]
    · intro c hc
      show (genStep C i F G Hv (classLoop _ s n) n).trainScore c = _
      rw [genStep]
      simp only [Function.update_noteq (Nat.ne_of_gt (Nat.lt_of_succ_le hc))]
      exact iht' c (le_of_lt (Nat.lt_of_succ_le hc))
    · intro c hc b
      rcases Nat.lt_succ_iff_lt_or_eq.mp hc with h | hceq
      · show (genStep C i F G Hv (classLoop _ s n) n).validScore c b = _
        rw [genStep]
        simp only [Function.update_noteq (Nat.ne_of_lt h)]
        exact ihv c h b
      · subst hceq
        show (genStep C i F G Hv (classLoop _ s c) c).validScore c b = _
        rw [genStep]
        simp only [Function.update_same]
        rw [ihv' c (le_refl c),
          ihu (i * C + c) (fun c' hc' heq => (Nat.ne_of_lt hc')
            (Nat.add_left_cancel heq.symm))]
    · intro c hc
      show (genStep C i F G Hv (classLoop _ s n) n).validScore c = _
      rw [genStep]
      simp only [Function.update_noteq (Nat.ne_of_gt (Nat.lt_of_succ_le hc))]
      exact ihv' c (le_of_lt (Nat.lt_of_succ_le hc))
    · show (genStep C i F G Hv (classLoop _ s n) n).numModels = _
      rw [genStep]
      exact ihn

end LightGBM.Boosting

namespace LightGBM.Boosting

theorem flatIdx_inj {C i i' c c' : ℕ} (hc : c < C) (hc' : c' < C)
    (h : i * C + c = i' * C + c') : i = i' ∧ c = c' := by
  rcases Nat.lt_trichotomy i i' with hlt | heq | hgt
  · exfalso
    have h1 : i * C + c < (i + 1) * C := by
      rw [Nat.succ_mul]
      exact Nat.add_lt_add_left hc _
    have h2 : (i + 1) * C ≤ i' * C := Nat.mul_le_mul_right _ hlt
    omega
  · subst heq
    exact ⟨rfl, Nat.add_left_cancel h⟩
  · exfalso
    have h1 : i' * C + c' < (i' + 1) * C := by
      rw [Nat.succ_mul]
      exact Nat.add_lt_add_left hc' _
    have h2 : (i' + 1) * C ≤ i * C := Nat.mul_le_mul_right _ hgt
    omega

theorem foldD_genStep_spec {α β : Type} (C : ℕ)
    (F : DTree α β → DTree α β) (G : DTree α β → α → ℚ) (Hv : DTree α β → β → ℚ)
    (D : List ℕ) (hD : D.Nodup) (s : BoostState α β) :
    (∀ i ∈ D, ∀ c < C,
      (D.foldl (fun s i => classLoop (genStep C i F G Hv) s C) s).models (i * C + c)
        = F (s.models (i * C + c))) ∧
    (∀ idx : ℕ, (∀ i ∈ D, ∀ c < C, idx ≠ i * C + c) →
      (D.foldl (fun s i => classLoop (genStep C i F G Hv) s C) s).models idx
        = s.models idx) ∧
    (∀ c < C, ∀ a,
      (D.foldl (fun s i => classLoop (genStep C i F G Hv) s C) s).trainScore c a
        = s.trainScore c a + (D.map (fun i => G (s.models (i * C + c)) a)).sum) ∧
    (∀ c, C ≤ c →
      (D.foldl (fun s i => classLoop (genStep C i F G Hv) s C) s).trainScore c
        = s.trainScore c) ∧
    (∀ c < C, ∀ b,
      (D.foldl (fun s i => classLoop (genStep C i F G Hv) s C) s).validScore c b
        = s.validScore c b + (D.map (fun i => Hv (s.models (i * C + c)) b)).sum) ∧
    (∀ c, C ≤ c →
      (D.foldl (fun s i => classLoop (genStep C i F G Hv) s C) s).validScore c
        = s.validScore c) ∧
    (D.foldl (fun s i => classLoop (genStep C i F G Hv) s C) s).numModels
      = s.numModels := by
  induction D generalizing s with
  | nil =>
    exact ⟨fun i hi => absurd hi (List.not_mem_nil i), fun idx _ => rfl,
      fun c _ a => by simp, fun c _ => rfl, fun c _ b => by simp, fun c _ => rfl, rfl⟩
  | cons i0 D' ih =>
    have hi0 : i0 ∉ D' := (List.nodup_cons.mp hD).1
    have hD' : D'.Nodup := (List.nodup_cons.mp hD).2
    obtain ⟨CL1, CL2, CL3, CL4, CL5, CL6, CL7⟩ :=
      classLoop_genStep_spec C i0 F G Hv s C
    obtain ⟨IH1, IH2, IH3, IH4, IH5, IH6, IH7⟩ :=
      ih hD' (classLoop (genStep C i0 F G Hv) s C)
    have huntouched : ∀ i ∈ D', ∀ c < C,
        (classLoop (genStep C i0 F G Hv) s C).models (i * C + c)
          = s.models (i * C + c) := by
      intro i hi c hc
      refine CL2 (i * C + c) (fun c' hc' heq => ?_)
      rcases flatIdx_inj hc hc' heq with ⟨rfl, _⟩
      exact hi0 hi
    refine ⟨?_, ?_, ?_, ?_, ?_, ?_, ?_⟩
    · intro i hi c hc
      rcases List.mem_cons.mp hi with rfl | hi'
      · simp only [List.foldl_cons]
        rw [IH2 (i * C + c) (fun i' hi' c' hc' heq => by
          rcases flatIdx_inj hc hc' heq with ⟨rfl, _⟩
          exact hi0 hi')]
        exact CL1 c hc
      · simp only [List.foldl_cons]
        rw [IH1 i hi' c hc, huntouched i hi' c hc]
    · intro idx hidx
      simp only [List.foldl_cons]
      rw [IH2 idx (fun i hi c hc => hidx i (List.mem_cons_of_mem i0 hi) c hc)]
      exact CL2 idx (fun c hc => hidx i0 (List.mem_cons_self i0 D') c hc)
    · intro c hc a
      simp only [List.foldl_cons]
      rw [IH3 c hc a, CL3 c hc a,
        List.map_congr_left (fun i hi => by rw [huntouched i hi c hc])]
      rw [List.map_cons, List.sum_cons]
      ring
    · intro c hc
      simp only [List.foldl_cons]
      rw [IH4 c hc, CL4 c hc]
    · intro c hc b
      simp only [List.foldl_cons]
      rw [IH5 c hc b, CL5 c hc b,
        List.map_congr_left (fun i hi => by rw [huntouched i hi c hc])]
      rw [List.map_cons, List.sum_cons]
      ring
    · intro c hc
      simp only [List.foldl_cons]
      rw [IH6 c hc, CL6 c hc]
    · simp only [List.foldl_cons]
      rw [IH7, CL7]

theorem classLoop_addTree_spec {α β : Type} (rate : ℚ) (newTrees : ℕ → DTree α β)
    (s : BoostState α β) (n : ℕ) :
    (classLoop (addTreeStep rate newTrees) s n).numModels = s.numModels + n ∧
    (∀ c < n, (classLoop (addTreeStep rate newTrees) s n).models (s.numModels + c)
        = (newTrees c).shrink rate) ∧
    (∀ idx, idx < s.numModels →
      (classLoop (addTreeStep rate newTrees) s n).models idx = s.models idx) ∧
    (∀ c < n, ∀ a, (classLoop (addTreeStep rate newTrees) s n).trainScore c a
        = s.trainScore c a + rate * (newTrees c).tr a) ∧
    (∀ c, n ≤ c →
      (classLoop (addTreeStep rate newTrees) s n).trainScore c = s.trainScore c) ∧
    (∀ c < n, ∀ b, (classLoop (addTreeStep rate newTrees) s n).validScore c b
        = s.validScore c b + rate * (newTrees c).va b) ∧
    (∀ c, n ≤ c →
      (classLoop (addTreeStep rate newTrees) s n).validScore c = s.validScore c) := by
  induction n with
  | zero =>
    exact ⟨rfl, fun c hc => absurd hc (Nat.not_lt_zero c), fun idx _ => rfl,
      fun c hc => absurd hc (Nat.not_lt_zero c), fun c _ => rfl,
      fun c hc => absurd hc (Nat.not_lt_zero c), fun c _ => rfl⟩
  | succ n ih =>
    obtain ⟨ihn, ihm, ihu, iht, iht', ihv, ihv'⟩ := ih
    refine ⟨?_, ?_, ?_, ?_, ?_, ?_, ?_⟩
    · show (addTreeStep rate newTrees (classLoop _ s n) n).numModels = _
      rw [addTreeStep]
      simp only [ihn, Nat.add_succ]
    · intro c hc
      rcases Nat.lt_succ_iff_lt_or_eq.mp hc with h | hceq
      · show (addTreeStep rate newTrees (classLoop _ s n) n).models (s.numModels + c) = _
        rw [addTreeStep]
        simp only [Function.update_noteq
          (show s.numModels + c ≠ (classLoop (addTreeStep rate newTrees) s n).numModels by
            rw [ihn]; omega)]
        exact ihm c h
      · subst hceq
        show (addTreeStep rate newTrees (classLoop _ s c) c).models (s.numModels + c) = _
        rw [addTreeStep]
        rw [show s.numModels + c = (classLoop (addTreeStep rate newTrees) s c).numModels
          from ihn.symm]
        simp only [Function.update_same]
    · intro idx hidx
      show (addTreeStep rate newTrees (classLoop _ s n) n).models idx = _
      rw [addTreeStep]
      simp only [Function.update_noteq
        (show idx ≠ (classLoop (addTreeStep rate newTrees) s n).numModels by
          rw [ihn]; omega)]
      exact ihu idx hidx
    · intro c hc a
      rcases Nat.lt_succ_iff_lt_or_eq.mp hc with h | hceq
      · show (addTreeStep rate newTrees (classLoop _ s n) n).trainScore c a = _
        rw [addTreeStep]
        simp only [Function.update_noteq (Nat.ne_of_lt h)]
        exact iht c h a
      · subst hceq
        show (addTreeStep rate newTrees (classLoop _ s c) c).trainScore c a = _
        rw [addTreeStep]
        simp only [Function.update_same]
        rw [iht' c (le_refl c)]
        rfl
    · intro c hc
      show (addTreeStep rate newTrees (classLoop _ s n) n).trainScore c = _
      rw [addTreeStep]
      simp only [Function.update_noteq (Nat.ne_of_gt (Nat.lt_of_succ_le hc))]
      exact iht' c (le_of_lt (Nat.lt_of_succ_le hc))
    · intro c hc b
      rcases Nat.lt_succ_iff_lt_or_eq.mp hc with h | hceq
      · show (addTreeStep rate newTrees (classLoop _ s n) n).validScore c b = _
        rw [addTreeStep]
        simp only [Function.update_noteq (Nat.ne_of_lt h)]
        exact ihv c h b
      · subst hceq
        show (addTreeStep rate newTrees (classLoop _ s c) c).validScore c b = _
        rw [addTreeStep]
        simp only [Function.update_same]
        rw [ihv' c (le_refl c)]
        rfl
    · intro c hc
      show (addTreeStep rate newTrees (classLoop _ s n) n).validScore c = _
      rw [addTreeStep]
      simp only [Function.update_noteq (Nat.ne_of_gt (Nat.lt_of_succ_le hc))]
      exact ihv' c (le_of_lt (Nat.lt_of_succ_le hc))

end LightGBM.Boosting

namespace LightGBM.Boosting

theorem droppingTrees_eq_fold {α β : Type} (C : ℕ) (D : List ℕ) (s : BoostState α β) :
    droppingTrees C D s
      = D.foldl (fun s i => classLoop (genStep C i (fun m => m.shrink (-1))
          (fun m a => (m.shrink (-1)).tr a) (fun _ _ => 0)) s C) s := by
  simp only [droppingTrees, dropStep_eq_genStep]

theorem normalize_eq_fold {α β : Type} (C : ℕ) (D : List ℕ) (s : BoostState α β) :
    normalize C D s
      = D.foldl (fun s i => classLoop (genStep C i
          (fun m => (m.shrink (shrinkageRate D)).shrink (-(D.length : ℚ)))
          (fun m a => ((m.shrink (shrinkageRate D)).shrink (-(D.length : ℚ))).tr a)
          (fun m b => (m.shrink (shrinkageRate D)).va b)) s C) s := by
  simp only [normalize, normalizeStep_eq_genStep]

/-- C1: one DART iteration with drop set `D` (`k = |D|`) and per-class new
trees: every new tree's values are scaled by exactly `1/(k+1)`; every
dropped tree's stored values end scaled by `k/(k+1)` relative to before the
drop; the training score ends at `old − (1/(k+1))·Σ_{d∈D} d + (1/(k+1))·t`
per class and row; and every validation score receives
`− (1/(k+1))·Σ_{d∈D} d + (1/(k+1))·t`. -/
theorem dart_one_iteration_normalization {α β : Type} (C iter : ℕ) (D : List ℕ)
    (newTrees : ℕ → DTree α β) (s : BoostState α β)
    (hD : D.Nodup) (hiter : ∀ i ∈ D, i < iter) (hnum : s.numModels = iter * C) :
    (∀ c < C, (∀ a, ((dartTrainOneIter C D newTrees s).models (iter * C + c)).tr a
        = 1 / ((D.length : ℚ) + 1) * (newTrees c).tr a) ∧
      (∀ b, ((dartTrainOneIter C D newTrees s).models (iter * C + c)).va b
        = 1 / ((D.length : ℚ) + 1) * (newTrees c).va b)) ∧
    (∀ i ∈ D, ∀ c < C,
      (∀ a, ((dartTrainOneIter C D newTrees s).models (i * C + c)).tr a
        = (D.length : ℚ) / ((D.length : ℚ) + 1) * (s.models (i * C + c)).tr a) ∧
      (∀ b, ((dartTrainOneIter C D newTrees s).models (i * C + c)).va b
        = (D.length : ℚ) / ((D.length : ℚ) + 1) * (s.models (i * C + c)).va b)) ∧
    (∀ c < C, ∀ a, (dartTrainOneIter C D newTrees s).trainScore c a
        = s.trainScore c a
          - 1 / ((D.length : ℚ) + 1) * (D.map (fun i => (s.models (i * C + c)).tr a)).sum
          + 1 / ((D.length : ℚ) + 1) * (newTrees c).tr a) ∧
    (∀ c < C, ∀ b, (dartTrainOneIter C D newTrees s).validScore c b
        = s.validScore c b
          - 1 / ((D.length : ℚ) + 1) * (D.map (fun i => (s.models (i * C + c)).va b)).sum
          + 1 / ((D.length : ℚ) + 1) * (newTrees c).va b) := by
  have hk0 : (0 : ℚ) ≤ (D.length : ℚ) := Nat.cast_nonneg _
  have hk1 : (1 : ℚ) + (D.length : ℚ) ≠ 0 := by positivity
  obtain ⟨P1m, P1u, P1t, P1t', P1v, P1v', P1n⟩ :=
    foldD_genStep_spec C (fun m => m.shrink (-1))
      (fun m a => (m.shrink (-1)).tr a) (fun _ _ => 0) D hD s
  rw [← droppingTrees_eq_fold] at P1m P1u P1t P1t' P1v P1v' P1n
  obtain ⟨A2n, A2m, A2u, A2t, A2t', A2v, A2v'⟩ :=
    classLoop_addTree_spec (shrinkageRate D) newTrees (droppingTrees C D s) C
  obtain ⟨P3m, P3u, P3t, P3t', P3v, P3v', P3n⟩ :=
    foldD_genStep_spec C
      (fun m => (m.shrink (shrinkageRate D)).shrink (-(D.length : ℚ)))
      (fun m a => ((m.shrink (shrinkageRate D)).shrink (-(D.length : ℚ))).tr a)
      (fun m b => (m.shrink (shrinkageRate D)).va b) D hD
      (classLoop (addTreeStep (shrinkageRate D) newTrees) (droppingTrees C D s) C)
  rw [← normalize_eq_fold] at P3m P3u P3t P3t' P3v P3v' P3n
  have hs1n : (droppingTrees C D s).numModels = iter * C := by rw [P1n, hnum]
  have hnewidx : ∀ c < C, ∀ i ∈ D, ∀ c' < C, iter * C + c ≠ i * C + c' := by
    intro c hc i hi c' hc' heq
    obtain ⟨heq2, _⟩ := flatIdx_inj hc hc' heq
    have := hiter i hi
    omega
  have hdropidx : ∀ i ∈ D, ∀ c < C, i * C + c < iter * C := by
    intro i hi c hc
    calc i * C + c < (i + 1) * C := by rw [Nat.succ_mul]; exact Nat.add_lt_add_left hc _
    _ ≤ iter * C := Nat.mul_le_mul_right _ (hiter i hi)
  have hchain : ∀ i ∈ D, ∀ c < C,
      (classLoop (addTreeStep (shrinkageRate D) newTrees)
        (droppingTrees C D s) C).models (i * C + c)
        = (s.models (i * C + c)).shrink (-1) := by
    intro i hi c hc
    rw [A2u (i * C + c) (hs1n ▸ hdropidx i hi c hc), P1m i hi c hc]
  have hdart : dartTrainOneIter C D newTrees s
      = normalize C D (classLoop (addTreeStep (shrinkageRate D) newTrees)
          (droppingTrees C D s) C) := rfl
  refine ⟨?_, ?_, ?_, ?_⟩
  · intro c hc
    have hmodel : (dartTrainOneIter C D newTrees s).models (iter * C + c)
        = (newTrees c).shrink (shrinkageRate D) := by
      rw [hdart, P3u (iter * C + c) (hnewidx c hc)]
      rw [show iter * C + c = (droppingTrees C D s).numModels + c by rw [hs1n]]
      exact A2m c hc
    constructor
    · intro a
      rw [hmodel]
      show shrinkageRate D * (newTrees c).tr a = _
      rw [shrinkageRate, add_comm (1 : ℚ) ((D.length : ℚ))]
    · intro b
      rw [hmodel]
      show shrinkageRate D * (newTrees c).va b = _
      rw [shrinkageRate, add_comm (1 : ℚ) ((D.length : ℚ))]
  · intro i hi c hc
    have hmodel : (dartTrainOneIter C D newTrees s).models (i * C + c)
        = (((s.models (i * C + c)).shrink (-1)).shrink
            (shrinkageRate D)).shrink (-(D.length : ℚ)) := by
      rw [hdart, P3m i hi c hc, hchain i hi c hc]
    constructor
    · intro a
      rw [hmodel]
      show -(D.length : ℚ) * (shrinkageRate D * (-1 * (s.models (i * C + c)).tr a)) = _
      rw [shrinkageRate, add_comm (1 : ℚ) ((D.length : ℚ))]
      ring
    · intro b
      rw [hmodel]
      show -(D.length : ℚ) * (shrinkageRate D * (-1 * (s.models (i * C + c)).va b)) = _
      rw [shrinkageRate, add_comm (1 : ℚ) ((D.length : ℚ))]
      ring
  · intro c hc a
    rw [hdart, P3t c hc a,
      List.map_congr_left (fun i hi => by rw [hchain i hi c hc]),
      A2t c hc a, P1t c hc a]
    have hsum1 : (D.map (fun i => ((s.models (i * C + c)).shrink (-1)).tr a)).sum
        = -1 * (D.map (fun i => (s.models (i * C + c)).tr a)).sum := by
      rw [← List.sum_map_mul_left]
      rfl
    have hsum3 : (D.map (fun i =>
        ((((s.models (i * C + c)).shrink (-1)).shrink (shrinkageRate D)).shrink
          (-(D.length : ℚ))).tr a)).sum
        = (-(D.length : ℚ) * (shrinkageRate D * -1))
            * (D.map (fun i => (s.models (i * C + c)).tr a)).sum := by
      rw [← List.sum_map_mul_left]
      refine congrArg List.sum (List.map_congr_left (fun i _ => ?_))
      show -(D.length : ℚ) * (shrinkageRate D * (-1 * (s.models (i * C + c)).tr a)) = _
      ring
    rw [hsum1, hsum3]
    show _ + -1 * _ + shrinkageRate D * _ + _ = _
    rw [shrinkageRate]
    field_simp
    ring
  · intro c hc b
    rw [hdart, P3v c hc b,
      List.map_congr_left (fun i hi => by rw [hchain i hi c hc]),
      A2v c hc b, P1v c hc b]
    have hsum0 : (D.map (fun i => (0 : ℚ))).sum = 0 := by
      simp
    have hsum3 : (D.map (fun i =>
        (((s.models (i * C + c)).shrink (-1)).shrink (shrinkageRate D)).va b)).sum
        = (shrinkageRate D * -1)
            * (D.map (fun i => (s.models (i * C + c)).va b)).sum := by
      rw [← List.sum_map_mul_left]
      refine congrArg List.sum (List.map_congr_left (fun i _ => ?_))
      show shrinkageRate D * (-1 * (s.models (i * C + c)).va b) = _
      ring
    rw [hsum0, hsum3]
    show _ + 0 + shrinkageRate D * _ + _ = _
    rw [shrinkageRate]
    field_simp
    ring

end LightGBM.Boosting

namespace LightGBM.Boosting

/-- Concrete one-class state for the DART witnesses: one previous tree with
constant prediction 2, zero scores. -/
def dartWitState : BoostState Unit Unit :=
  ⟨fun _ => ⟨fun _ => 2, fun _ => 2⟩, 1, fun _ _ => 0, fun _ _ => 0⟩

/-- Concrete learner output for the DART witnesses: constant prediction 3. -/
def dartWitTrees : ℕ → DTree Unit Unit := fun _ => ⟨fun _ => 3, fun _ => 3⟩

/-- Witness for C1 at a concrete state: one class, one previous tree,
drop set `[0]`. -/
theorem dart_one_iteration_normalization_witness :
    (dartTrainOneIter 1 [0] dartWitTrees dartWitState).trainScore 0 ()
      = dartWitState.trainScore 0 ()
        - 1 / ((([0] : List ℕ).length : ℚ) + 1)
            * (([0] : List ℕ).map
                (fun i => (dartWitState.models (i * 1 + 0)).tr ())).sum
        + 1 / ((([0] : List ℕ).length : ℚ) + 1) * (dartWitTrees 0).tr () :=
  (dart_one_iteration_normalization 1 1 [0] dartWitTrees dartWitState
    (by decide) (by decide) (by decide)).2.2.1 0 (by decide) ()

/-- Concrete one-class state for the C5 counterexample: one previous tree
with constant prediction 1, zero scores. -/
def c5State : BoostState Unit Unit :=
  ⟨fun _ => ⟨fun _ => 1, fun _ => 1⟩, 1, fun _ _ => 0, fun _ _ => 0⟩

/-- Concrete learner output for the C5 counterexample. -/
def c5Trees : ℕ → DTree Unit Unit := fun _ => ⟨fun _ => 1, fun _ => 1⟩

/-- C5 counterexample: with `drop_rate = 0` at iteration 1 the forced drop
set is a nonempty subset of `{0}`, i.e. `[0]` (and `[]` is the only
possibility at iteration 0); in both cases the DART iteration's training
score differs from the GBDT iteration's (`learning_rate = 1/10`) from the
same state: DART scales the new tree by `1/(k+1)` instead of
`learning_rate` and permanently rescales the dropped tree. -/
theorem dart_not_gbdt_at_zero_droprate :
    (dartTrainOneIter 1 [0] c5Trees c5State).trainScore 0 ()
        ≠ (gbdtTrainOneIter 1 (1/10) c5Trees c5State).trainScore 0 () ∧
    (dartTrainOneIter 1 [] c5Trees c5State).trainScore 0 ()
        ≠ (gbdtTrainOneIter 1 (1/10) c5Trees c5State).trainScore 0 () := by
  have hdart1 := (dart_one_iteration_normalization 1 1 [0] c5Trees c5State
    (by decide) (by decide) (by decide)).2.2.1 0 (by decide) ()
  have hdart0 := (dart_one_iteration_normalization 1 1 [] c5Trees c5State
    (by decide) (by decide) (by decide)).2.2.1 0 (by decide) ()
  have hgbdt := (classLoop_addTree_spec (1/10) c5Trees c5State 1).2.2.2.1
    0 (by decide) ()
  have hg : (gbdtTrainOneIter 1 (1/10) c5Trees c5State).trainScore 0 ()
      = c5State.trainScore 0 () + 1/10 * (c5Trees 0).tr () := hgbdt
  norm_num [c5State, c5Trees] at hdart1 hdart0 hg
  simp only [c5State]
  rw [hdart1, hdart0, hg]
  norm_num

/-- C5 (amended): a DART iteration coincides with a GBDT iteration exactly
in the degenerate case — an empty drop set (which the forced selection can
produce only before any tree exists) and `learning_rate = 1`: then
`shrinkage_rate_ = 1/(0+1) = 1` and dropping/normalisation are no-ops. -/
theorem dart_gbdt_coincide_empty_drop {α β : Type} (C : ℕ)
    (newTrees : ℕ → DTree α β) (s : BoostState α β) :
    dartTrainOneIter C [] newTrees s = gbdtTrainOneIter C 1 newTrees s := by
  rw [dartTrainOneIter, gbdtTrainOneIter,
    show shrinkageRate [] = 1 by rw [shrinkageRate]; norm_num]
  rfl

end LightGBM.Boosting

namespace LightGBM.DataPartition

/-! ## DataPartition (treelearner/data_partition.hpp)

`Bin::Split` (the per-row routing by `bin ≤ threshold` with the
`default_bin`/`default_left` rule, bin.h being absent from the sources) is
modelled from the spec §4.2 as the induced row predicate `p : ℕ → Bool`
("row goes to the left child"), which order-preservingly partitions a row
range — the only property `DataPartition::Split` relies on.  The OpenMP
two-pass partition (per-chunk counts, serial prefix scan, copy-back at the
scanned offsets) is embedded by its sequential denotation: the chunk
decomposition at `inner_size` is explicit, each chunk is partitioned, and
the per-chunk left (then right) parts are concatenated in chunk order,
exactly as the computed write offsets lay them out. -/

structure DP where
  numData : ℕ
  numLeaves : ℕ
  leafBegin : ℕ → ℕ
  leafCount : ℕ → ℕ
  indices : List ℕ

/-- `DataPartition::Init`: all rows on leaf 0 (the vectors are
zero-initialised by `resize`). -/
def init (numData numLeaves : ℕ) : DP :=
  { numData := numData, numLeaves := numLeaves,
    leafBegin := fun _ => 0,
    leafCount := fun l => if l = 0 then numData else 0,
    indices := List.range numData }

/-- The chunked two-pass partition over `numThreads` chunks of size
`innerSize`: chunk `i` covers `[i·innerSize, (i+1)·innerSize)` of the row
range; all left parts are written (in chunk order) before all right
parts. -/
def chunkFilter (p : ℕ → Bool) (innerSize : ℕ) : ℕ → List ℕ → List ℕ × List ℕ
  | 0, _ => ([], [])
  | t + 1, l =>
    let rest := chunkFilter p innerSize t (l.drop innerSize)
    ((l.take innerSize).filter p ++ rest.1,
     (l.take innerSize).filter (fun x => !p x) ++ rest.2)

/-- `DataPartition::Split(leaf, feature_bins, threshold, right_leaf)`. -/
def split (dp : DP) (leaf : ℕ) (p : ℕ → Bool) (rightLeaf : ℕ)
    (numThreads : ℕ) : DP :=
  let b := dp.leafBegin leaf
  let cnt := dp.leafCount leaf
  let innerSize := max ((cnt + numThreads - 1) / numThreads) 1000
  let seg := (dp.indices.drop b).take cnt
  let lr := chunkFilter p innerSize numThreads seg
  let leftCnt := lr.1.length
  { dp with
    indices := dp.indices.take b ++ lr.1 ++ lr.2 ++ dp.indices.drop (b + cnt),
    leafCount := Function.update (Function.update dp.leafCount leaf leftCnt)
      rightLeaf (cnt - leftCnt),
    leafBegin := Function.update dp.leafBegin rightLeaf (leftCnt + b) }

/-- The rows of leaf `l`: the contiguous slice
`[leaf_begin l, leaf_begin l + leaf_count l)` of `indices`. -/
def leafRows (dp : DP) (l : ℕ) : List ℕ :=
  (dp.indices.drop (dp.leafBegin l)).take (dp.leafCount l)

structure SplitOp where
  leaf : ℕ
  pred : ℕ → Bool
  rightLeaf : ℕ
  numThreads : ℕ

def applyOp (dp : DP) (op : SplitOp) : DP :=
  split dp op.leaf op.pred op.rightLeaf op.numThreads

/-- Validity of a split sequence: each split names leaves in range, a
previously empty right leaf, and at least one worker thread. -/
def ValidOps (dp : DP) : List SplitOp → Prop
  | [] => True
  | op :: rest =>
    op.leaf < dp.numLeaves ∧ op.rightLeaf < dp.numLeaves ∧
    dp.leafCount op.rightLeaf = 0 ∧ 0 < op.numThreads ∧
    ValidOps (applyOp dp op) rest

theorem chunkFilter_eq_filter (p : ℕ → Bool) (s : ℕ) (t : ℕ) (l : List ℕ)
    (hcov : l.length ≤ t * s) :
    chunkFilter p s t l = (l.filter p, l.filter (fun x => !p x)) := by
  induction t generalizing l with
  | zero =>
    have : l = [] := List.eq_nil_of_length_eq_zero (Nat.le_zero.mp (by simpa using hcov))
    subst this
    rfl
  | succ t ih =>
    rw [chunkFilter, ih (l.drop s) (by
      rw [List.length_drop]
      rw [Nat.succ_mul] at hcov
      omega)]
    have hsplit := List.take_append_drop s l
    refine Prod.ext ?_ ?_ <;> simp only []
    · rw [← List.filter_append, hsplit]
    · rw [← List.filter_append, hsplit]

theorem cover_bound (cnt t : ℕ) (ht : 0 < t) :
    cnt ≤ t * max ((cnt + t - 1) / t) 1000 := by
  rcases Nat.eq_zero_or_pos cnt with h0 | h1
  · simp [h0]
  · have hts : cnt + t - 1 = (cnt - 1) + t := by omega
    have hdiv : (cnt + t - 1) / t = (cnt - 1) / t + 1 := by
      rw [hts, Nat.add_div_right _ ht]
    have key : cnt ≤ t * ((cnt - 1) / t + 1) := by
      rw [Nat.mul_succ]
      obtain ⟨m, hm⟩ : ∃ m, t * ((cnt - 1) / t) = m := ⟨_, rfl⟩
      have hdm := Nat.div_add_mod (cnt - 1) t
      rw [hm] at hdm
      have hmod : (cnt - 1) % t < t := Nat.mod_lt _ ht
      omega
    calc cnt ≤ t * ((cnt - 1) / t + 1) := key
    _ ≤ t * max ((cnt + t - 1) / t) 1000 := by
        refine Nat.mul_le_mul_left t ?_
        rw [hdiv]
        exact le_max_left _ _

/-- In `split`, the chunked partition equals the plain stable partition of
the leaf's row segment. -/
theorem split_chunk_eq (dp : DP) (leaf : ℕ) (p : ℕ → Bool) (t : ℕ) (ht : 0 < t) :
    chunkFilter p (max ((dp.leafCount leaf + t - 1) / t) 1000) t
        ((dp.indices.drop (dp.leafBegin leaf)).take (dp.leafCount leaf))
      = (((dp.indices.drop (dp.leafBegin leaf)).take (dp.leafCount leaf)).filter p,
         ((dp.indices.drop (dp.leafBegin leaf)).take (dp.leafCount leaf)).filter
           (fun x => !p x)) := by
  refine chunkFilter_eq_filter _ _ _ _ ?_
  calc ((dp.indices.drop (dp.leafBegin leaf)).take (dp.leafCount leaf)).length
      ≤ dp.leafCount leaf := by
        rw [List.length_take]
        exact min_le_left _ _
  _ ≤ t * max ((dp.leafCount leaf + t - 1) / t) 1000 := cover_bound _ _ ht

end LightGBM.DataPartition

namespace LightGBM.DataPartition

/-- The running invariant of a `DataPartition`: `indices` is a permutation
of the initial row ids, every non-empty leaf's range lies inside
`[0, numData)`, every position belongs to exactly one leaf range, and the
leaf counts sum to `numData`. -/
def Inv (dp : DP) : Prop :=
  dp.indices.length = dp.numData ∧
  dp.indices.Perm (List.range dp.numData) ∧
  (∀ l, l < dp.numLeaves → 0 < dp.leafCount l →
      dp.leafBegin l + dp.leafCount l ≤ dp.numData) ∧
  (∀ pos, pos < dp.numData → ∃! l, l < dp.numLeaves ∧
      dp.leafBegin l ≤ pos ∧ pos < dp.leafBegin l + dp.leafCount l) ∧
  (∑ l ∈ Finset.range dp.numLeaves, dp.leafCount l) = dp.numData

theorem inv_init (N L : ℕ) (hL : 0 < L) : Inv (init N L) := by
  refine ⟨by simp [init], by simp [init], ?_, ?_, ?_⟩
  · intro l hl hcnt
    rcases Nat.eq_zero_or_pos l with rfl | hpos
    · simp [init]
    · rw [init] at hcnt
      simp only [if_neg (Nat.pos_iff_ne_zero.mp hpos)] at hcnt
      exact absurd hcnt (lt_irrefl 0)
  · intro pos hpos
    refine ⟨0, ⟨hL, by simp [init], by simpa [init] using hpos⟩, ?_⟩
    intro l ⟨hl, hge, hlt⟩
    by_contra hne
    rw [init] at hlt
    simp only [if_neg hne] at hlt
    omega
  · rw [init]
    simp only [Finset.sum_ite_eq' (Finset.range L) 0 (fun _ => N)]
    rw [if_pos (Finset.mem_range.mpr hL)]

theorem split_numData (dp : DP) (leaf : ℕ) (p : ℕ → Bool) (rightLeaf t : ℕ) :
    (split dp leaf p rightLeaf t).numData = dp.numData := rfl

theorem split_numLeaves (dp : DP) (leaf : ℕ) (p : ℕ → Bool) (rightLeaf t : ℕ) :
    (split dp leaf p rightLeaf t).numLeaves = dp.numLeaves := rfl

theorem split_fields (dp : DP) (leaf : ℕ) (p : ℕ → Bool) (rightLeaf t : ℕ)
    (ht : 0 < t) :
    (split dp leaf p rightLeaf t).indices
      = dp.indices.take (dp.leafBegin leaf)
        ++ ((dp.indices.drop (dp.leafBegin leaf)).take (dp.leafCount leaf)).filter p
        ++ ((dp.indices.drop (dp.leafBegin leaf)).take (dp.leafCount leaf)).filter
             (fun x => !p x)
        ++ dp.indices.drop (dp.leafBegin leaf + dp.leafCount leaf) ∧
    (split dp leaf p rightLeaf t).leafCount
      = Function.update (Function.update dp.leafCount leaf
          (((dp.indices.drop (dp.leafBegin leaf)).take (dp.leafCount leaf)).filter
            p).length) rightLeaf
          (dp.leafCount leaf -
            (((dp.indices.drop (dp.leafBegin leaf)).take (dp.leafCount leaf)).filter
              p).length) ∧
    (split dp leaf p rightLeaf t).leafBegin
      = Function.update dp.leafBegin rightLeaf
          ((((dp.indices.drop (dp.leafBegin leaf)).take (dp.leafCount leaf)).filter
            p).length + dp.leafBegin leaf) := by
  rw [split]
  simp only [split_chunk_eq dp leaf p t ht]
  exact ⟨trivial, trivial, trivial⟩

theorem split_begin_facts (dp : DP) (leaf : ℕ) (p : ℕ → Bool) (rightLeaf t : ℕ)
    (ht : 0 < t) (hEmpty : dp.leafCount rightLeaf = 0) :
    (split dp leaf p rightLeaf t).leafBegin leaf = dp.leafBegin leaf ∧
    (split dp leaf p rightLeaf t).leafBegin rightLeaf
      = dp.leafBegin leaf + (split dp leaf p rightLeaf t).leafCount leaf := by
  obtain ⟨hidx, hcnt, hbeg⟩ := split_fields dp leaf p rightLeaf t ht
  by_cases hne : leaf = rightLeaf
  · subst hne
    have hc0 : dp.leafCount leaf = 0 := hEmpty
    have hseg : (dp.indices.drop (dp.leafBegin leaf)).take (dp.leafCount leaf)
        = [] := by rw [hc0]; rfl
    constructor
    · rw [hbeg, Function.update_same, hseg]
      simp
    · rw [hbeg, hcnt, Function.update_same, Function.update_same, hseg, hc0]
      simp
  · constructor
    · rw [hbeg, Function.update_noteq hne]
    · rw [hbeg, hcnt, Function.update_same, Function.update_noteq hne,
        Function.update_same]
      exact Nat.add_comm _ _

end LightGBM.DataPartition

namespace LightGBM.DataPartition

theorem split_preserves_inv (dp : DP) (hInv : Inv dp) (leaf rightLeaf t : ℕ)
    (p : ℕ → Bool) (hleaf : leaf < dp.numLeaves) (hright : rightLeaf < dp.numLeaves)
    (hEmpty : dp.leafCount rightLeaf = 0) (ht : 0 < t) :
    Inv (split dp leaf p rightLeaf t) := by
  obtain ⟨hlen, hperm, hbound, huniq, hsum⟩ := hInv
  obtain ⟨hidx, hcnt, hbeg⟩ := split_fields dp leaf p rightLeaf t ht
  by_cases hc0 : dp.leafCount leaf = 0
  · -- splitting an empty leaf: everything but one begin value is unchanged
    have hseg : (dp.indices.drop (dp.leafBegin leaf)).take (dp.leafCount leaf)
        = [] := by rw [hc0]; rfl
    have hidx' : (split dp leaf p rightLeaf t).indices = dp.indices := by
      rw [hidx, hseg, hc0]
      simp [List.take_append_drop]
    have hcnt' : (split dp leaf p rightLeaf t).leafCount = dp.leafCount := by
      rw [hcnt, hseg]
      funext x
      by_cases hxr : x = rightLeaf
      · subst hxr
        rw [Function.update_same, hEmpty, hc0]
        rfl
      · rw [Function.update_noteq hxr]
        by_cases hxl : x = leaf
        · subst hxl
          rw [Function.update_same, hc0]
          rfl
        · rw [Function.update_noteq hxl]
    refine ⟨by rw [hidx']; exact hlen, by rw [hidx']; exact hperm, ?_, ?_, ?_⟩
    · intro l hl hpos
      rw [hcnt'] at hpos ⊢
      show (split dp leaf p rightLeaf t).leafBegin l + dp.leafCount l ≤ dp.numData
      by_cases hlr : l = rightLeaf
      · subst hlr
        rw [hEmpty] at hpos
        exact absurd hpos (lt_irrefl 0)
      · rw [hbeg, Function.update_noteq hlr]
        exact hbound l hl hpos
    · intro pos hpos
      obtain ⟨u, ⟨huL, hu1, hu2⟩, huU⟩ := huniq pos hpos
      have hclaims : ∀ l, ((split dp leaf p rightLeaf t).leafBegin l ≤ pos ∧
          pos < (split dp leaf p rightLeaf t).leafBegin l
            + (split dp leaf p rightLeaf t).leafCount l) ↔
          (dp.leafBegin l ≤ pos ∧ pos < dp.leafBegin l + dp.leafCount l) := by
        intro l
        rw [hcnt']
        by_cases hlr : l = rightLeaf
        · subst hlr
          rw [hEmpty]
          constructor <;> (rintro ⟨h1, h2⟩; omega)
        · rw [hbeg, Function.update_noteq hlr]
      refine ⟨u, ⟨huL, (hclaims u).mpr ⟨hu1, hu2⟩⟩, ?_⟩
      intro y ⟨hyL, hy⟩
      exact huU y ⟨hyL, (hclaims y).mp hy⟩
    · rw [hcnt']
      exact hsum
  · -- splitting a non-empty leaf
    have hcpos : 0 < dp.leafCount leaf := Nat.pos_of_ne_zero hc0
    have hlr : leaf ≠ rightLeaf := fun h => hc0 (h ▸ hEmpty)
    have hbc : dp.leafBegin leaf + dp.leafCount leaf ≤ dp.numData :=
      hbound leaf hleaf hcpos
    have hseglen : ((dp.indices.drop (dp.leafBegin leaf)).take
        (dp.leafCount leaf)).length = dp.leafCount leaf := by
      rw [List.length_take, List.length_drop, hlen]
      omega
    have hlc : (((dp.indices.drop (dp.leafBegin leaf)).take
        (dp.leafCount leaf)).filter p).length ≤ dp.leafCount leaf :=
      le_trans (List.length_filter_le _ _) (le_of_eq hseglen)
    have hlrperm := List.filter_append_perm p
      ((dp.indices.drop (dp.leafBegin leaf)).take (dp.leafCount leaf))
    have hdecomp : dp.indices
        = dp.indices.take (dp.leafBegin leaf)
          ++ (((dp.indices.drop (dp.leafBegin leaf)).take (dp.leafCount leaf))
            ++ dp.indices.drop (dp.leafBegin leaf + dp.leafCount leaf)) := by
      have h2 : dp.indices.drop (dp.leafBegin leaf)
          = ((dp.indices.drop (dp.leafBegin leaf)).take (dp.leafCount leaf))
            ++ dp.indices.drop (dp.leafBegin leaf + dp.leafCount leaf) := by
        conv_lhs => rw [← List.take_append_drop (dp.leafCount leaf)
          (dp.indices.drop (dp.leafBegin leaf))]
        rw [List.drop_drop]
      rw [← h2, List.take_append_drop]
    have hpermNew : (split dp leaf p rightLeaf t).indices.Perm dp.indices := by
      rw [hidx]
      conv_rhs => rw [hdecomp]
      rw [List.append_assoc, List.append_assoc]
      refine List.Perm.append_left _ ?_
      rw [← List.append_assoc]
      exact hlrperm.append (List.Perm.refl _)
    have hbl : (split dp leaf p rightLeaf t).leafBegin leaf = dp.leafBegin leaf := by
      rw [hbeg, Function.update_noteq hlr]
    have hbr : (split dp leaf p rightLeaf t).leafBegin rightLeaf
        = (((dp.indices.drop (dp.leafBegin leaf)).take (dp.leafCount leaf)).filter
            p).length + dp.leafBegin leaf := by
      rw [hbeg, Function.update_same]
    have hbo : ∀ l, l ≠ rightLeaf →
        (split dp leaf p rightLeaf t).leafBegin l = dp.leafBegin l := by
      intro l hl
      rw [hbeg, Function.update_noteq hl]
    have hcl : (split dp leaf p rightLeaf t).leafCount leaf
        = (((dp.indices.drop (dp.leafBegin leaf)).take (dp.leafCount leaf)).filter
            p).length := by
      rw [hcnt, Function.update_noteq hlr, Function.update_same]
    have hcr : (split dp leaf p rightLeaf t).leafCount rightLeaf
        = dp.leafCount leaf - (((dp.indices.drop (dp.leafBegin leaf)).take
            (dp.leafCount leaf)).filter p).length := by
      rw [hcnt, Function.update_same]
    have hco : ∀ l, l ≠ leaf → l ≠ rightLeaf →
        (split dp leaf p rightLeaf t).leafCount l = dp.leafCount l := by
      intro l h1 h2
      rw [hcnt, Function.update_noteq h2, Function.update_noteq h1]
    refine ⟨?_, ?_, ?_, ?_, ?_⟩
    · rw [hpermNew.length_eq]
      exact hlen
    · exact hpermNew.trans hperm
    · intro l hl hpos
      show (split dp leaf p rightLeaf t).leafBegin l
        + (split dp leaf p rightLeaf t).leafCount l ≤ dp.numData
      by_cases h1 : l = leaf
      · subst h1
        rw [hbl, hcl]
        omega
      · by_cases h2 : l = rightLeaf
        · subst h2
          rw [hbr, hcr]
          omega
        · rw [hbo l h2, hco l h1 h2]
          rw [hco l h1 h2] at hpos
          exact hbound l hl hpos
    · intro pos hpos
      obtain ⟨u, ⟨huL, hu1, hu2⟩, huU⟩ := huniq pos hpos
      by_cases hin : dp.leafBegin leaf ≤ pos ∧
          pos < dp.leafBegin leaf + dp.leafCount leaf
      · have hul : leaf = u := huU leaf ⟨hleaf, hin.1, hin.2⟩
        by_cases hlt : pos < dp.leafBegin leaf
            + (((dp.indices.drop (dp.leafBegin leaf)).take
              (dp.leafCount leaf)).filter p).length
        · refine ⟨leaf, ⟨hleaf, ?_, ?_⟩, ?_⟩
          · rw [hbl]; exact hin.1
          · rw [hbl, hcl]; exact hlt
          · intro y ⟨hyL, hy1, hy2⟩
            by_cases hy_leaf : y = leaf
            · exact hy_leaf
            · by_cases hy_right : y = rightLeaf
              · subst hy_right
                rw [hbr] at hy1
                omega
              · rw [hbo y hy_right] at hy1 hy2
                rw [hco y hy_leaf hy_right] at hy2
                exact absurd ((huU y ⟨hyL, hy1, hy2⟩).trans hul.symm) hy_leaf
        · refine ⟨rightLeaf, ⟨hright, ?_, ?_⟩, ?_⟩
          · rw [hbr]; omega
          · rw [hbr, hcr]; omega
          · intro y ⟨hyL, hy1, hy2⟩
            by_cases hy_leaf : y = leaf
            · subst hy_leaf
              rw [hbl, hcl] at hy2
              omega
            · by_cases hy_right : y = rightLeaf
              · exact hy_right
              · rw [hbo y hy_right] at hy1 hy2
                rw [hco y hy_leaf hy_right] at hy2
                exact absurd ((huU y ⟨hyL, hy1, hy2⟩).trans hul.symm) hy_leaf
      · have hune : u ≠ leaf := by
          intro h
          subst h
          exact hin ⟨hu1, hu2⟩
        have hune_r : u ≠ rightLeaf := by
          intro h
          rw [h, hEmpty] at hu2
          rw [h] at hu1
          omega
        refine ⟨u, ⟨huL, ?_, ?_⟩, ?_⟩
        · rw [hbo u hune_r]; exact hu1
        · rw [hbo u hune_r, hco u hune hune_r]; exact hu2
        · intro y ⟨hyL, hy1, hy2⟩
          by_cases hy_leaf : y = leaf
          · subst hy_leaf
            rw [hbl] at hy1 hy2
            rw [hcl] at hy2
            exact absurd ⟨hy1, by omega⟩ hin
          · by_cases hy_right : y = rightLeaf
            · subst hy_right
              rw [hbr] at hy1
              rw [hbr, hcr] at hy2
              exact absurd ⟨by omega, by omega⟩ hin
            · rw [hbo y hy_right] at hy1 hy2
              rw [hco y hy_leaf hy_right] at hy2
              exact huU y ⟨hyL, hy1, hy2⟩
    · show (∑ l ∈ Finset.range dp.numLeaves,
        (split dp leaf p rightLeaf t).leafCount l) = dp.numData
      rw [hcnt, Finset.sum_update_of_mem (Finset.mem_range.mpr hright)]
      have hlm : leaf ∈ Finset.range dp.numLeaves \ {rightLeaf} := by
        rw [Finset.mem_sdiff, Finset.mem_singleton]
        exact ⟨Finset.mem_range.mpr hleaf, hlr⟩
      rw [Finset.sum_update_of_mem hlm]
      have h1 := Finset.sum_eq_add_sum_diff_singleton
        (Finset.mem_range.mpr hright) dp.leafCount
      have h2 := Finset.sum_eq_add_sum_diff_singleton hlm dp.leafCount
      rw [h1, h2, hEmpty] at hsum
      omega

end LightGBM.DataPartition

namespace LightGBM.DataPartition

theorem foldl_numLeaves (ops : List SplitOp) (dp : DP) :
    (ops.foldl applyOp dp).numLeaves = dp.numLeaves := by
  induction ops generalizing dp with
  | nil => rfl
  | cons op rest ih => rw [List.foldl_cons, ih]; rfl

theorem foldl_numData (ops : List SplitOp) (dp : DP) :
    (ops.foldl applyOp dp).numData = dp.numData := by
  induction ops generalizing dp with
  | nil => rfl
  | cons op rest ih => rw [List.foldl_cons, ih]; rfl

theorem validOps_inv (ops : List SplitOp) (dp : DP) (hInv : Inv dp)
    (hops : ValidOps dp ops) : Inv (ops.foldl applyOp dp) := by
  induction ops generalizing dp with
  | nil => exact hInv
  | cons op rest ih =>
    obtain ⟨h1, h2, h3, h4, h5⟩ := hops
    rw [List.foldl_cons]
    exact ih (applyOp dp op) (split_preserves_inv dp hInv _ _ _ _ h1 h2 h3 h4) h5

theorem validOps_step (ops : List SplitOp) (dp : DP) (hops : ValidOps dp ops) :
    ∀ k (hk : k < ops.length),
      (ops.get ⟨k, hk⟩).leaf < ((ops.take k).foldl applyOp dp).numLeaves ∧
      (ops.get ⟨k, hk⟩).rightLeaf < ((ops.take k).foldl applyOp dp).numLeaves ∧
      ((ops.take k).foldl applyOp dp).leafCount (ops.get ⟨k, hk⟩).rightLeaf = 0 ∧
      0 < (ops.get ⟨k, hk⟩).numThreads := by
  induction ops generalizing dp with
  | nil => intro k hk; exact absurd hk (Nat.not_lt_zero k)
  | cons op rest ih =>
    obtain ⟨h1, h2, h3, h4, h5⟩ := hops
    intro k hk
    cases k with
    | zero => exact ⟨h1, h2, h3, h4⟩
    | succ k =>
      rw [List.take_succ_cons, List.foldl_cons]
      exact ih (applyOp dp op) h5 k (Nat.lt_of_succ_lt_succ hk)

theorem mem_leafRows_iff (dp : DP) (l : ℕ) (r : ℕ) :
    r ∈ leafRows dp l ↔ ∃ j < dp.leafCount l,
      dp.indices[dp.leafBegin l + j]? = some r := by
  constructor
  · intro hr
    rw [leafRows] at hr
    obtain ⟨j, hj, hget⟩ := List.mem_iff_getElem.mp hr
    have hj' := hj
    rw [List.length_take, List.length_drop] at hj'
    refine ⟨j, lt_of_lt_of_le hj' (min_le_left _ _), ?_⟩
    have hjd : j < (dp.indices.drop (dp.leafBegin l)).length := by
      rw [List.length_drop]
      exact lt_of_lt_of_le hj' (min_le_right _ _)
    rw [List.getElem_take, List.getElem_drop] at hget
    rw [List.getElem?_eq_some_iff]
    exact ⟨by rw [List.length_drop] at hjd; omega, hget⟩
  · rintro ⟨j, hj, hget⟩
    rw [List.getElem?_eq_some_iff] at hget
    obtain ⟨hlt, hget⟩ := hget
    rw [leafRows, List.mem_iff_getElem]
    have hjlen : j < (List.take (dp.leafCount l)
        (dp.indices.drop (dp.leafBegin l))).length := by
      rw [List.length_take, List.length_drop]
      omega
    refine ⟨j, hjlen, ?_⟩
    rw [List.getElem_take, List.getElem_drop]
    exact hget

/-- C3: starting from `Init` (all `N` rows on leaf 0) and applying any
valid sequence of splits (each `right_leaf` previously empty): the leaf
counts sum to `N`; the indices array stays a permutation of the row ids;
every row id lies in exactly one leaf's contiguous slice
`[leaf_begin, leaf_begin + leaf_count)`; every non-empty leaf's slice is in
bounds and of length `leaf_count`; and at each step the left child keeps
the parent's `begin` while the right child's range starts at
`begin + left_count`. -/
theorem dataPartition_split_invariants (N L : ℕ) (hL : 0 < L)
    (ops : List SplitOp) (hops : ValidOps (init N L) ops) :
    ((∑ l ∈ Finset.range L, (ops.foldl applyOp (init N L)).leafCount l) = N) ∧
    (ops.foldl applyOp (init N L)).indices.Perm (List.range N) ∧
    (∀ r < N, ∃! l, l < L ∧ r ∈ leafRows (ops.foldl applyOp (init N L)) l) ∧
    (∀ l < L, 0 < (ops.foldl applyOp (init N L)).leafCount l →
      (ops.foldl applyOp (init N L)).leafBegin l
          + (ops.foldl applyOp (init N L)).leafCount l ≤ N ∧
      (leafRows (ops.foldl applyOp (init N L)) l).length
          = (ops.foldl applyOp (init N L)).leafCount l) ∧
    (∀ k (hk : k < ops.length),
      (applyOp ((ops.take k).foldl applyOp (init N L)) (ops.get ⟨k, hk⟩)).leafBegin
          (ops.get ⟨k, hk⟩).leaf
        = ((ops.take k).foldl applyOp (init N L)).leafBegin (ops.get ⟨k, hk⟩).leaf ∧
      (applyOp ((ops.take k).foldl applyOp (init N L)) (ops.get ⟨k, hk⟩)).leafBegin
          (ops.get ⟨k, hk⟩).rightLeaf
        = ((ops.take k).foldl applyOp (init N L)).leafBegin (ops.get ⟨k, hk⟩).leaf
          + (applyOp ((ops.take k).foldl applyOp (init N L))
              (ops.get ⟨k, hk⟩)).leafCount (ops.get ⟨k, hk⟩).leaf) := by
  have hNL : (ops.foldl applyOp (init N L)).numLeaves = L := by
    rw [foldl_numLeaves]; rfl
  have hND : (ops.foldl applyOp (init N L)).numData = N := by
    rw [foldl_numData]; rfl
  obtain ⟨hlen, hperm, hbound, huniq, hsum⟩ :=
    validOps_inv ops (init N L) (inv_init N L hL) hops
  rw [hNL] at hbound huniq hsum
  rw [hND] at hlen hperm hbound huniq hsum
  refine ⟨hsum, hperm, ?_, ?_, ?_⟩
  · intro r hr
    have hnd : (ops.foldl applyOp (init N L)).indices.Nodup :=
      hperm.symm.nodup (List.nodup_range N)
    have hmem : r ∈ (ops.foldl applyOp (init N L)).indices :=
      hperm.symm.mem_iff.mp (List.mem_range.mpr hr)
    obtain ⟨pos, hposlt, hgetr⟩ := List.mem_iff_getElem.mp hmem
    have hposN : pos < N := hlen ▸ hposlt
    obtain ⟨l, ⟨hlL, hl1, hl2⟩, hlU⟩ := huniq pos hposN
    refine ⟨l, ⟨hlL, ?_⟩, ?_⟩
    · rw [mem_leafRows_iff]
      refine ⟨pos - (ops.foldl applyOp (init N L)).leafBegin l, by omega, ?_⟩
      rw [show (ops.foldl applyOp (init N L)).leafBegin l
          + (pos - (ops.foldl applyOp (init N L)).leafBegin l) = pos by omega]
      rw [List.getElem?_eq_some_iff]
      exact ⟨hposlt, hgetr⟩
    · intro y ⟨hyL, hy⟩
      rw [mem_leafRows_iff] at hy
      obtain ⟨j, hj, hget⟩ := hy
      rw [List.getElem?_eq_some_iff] at hget
      obtain ⟨hblen, hbget⟩ := hget
      have heqpos : (ops.foldl applyOp (init N L)).leafBegin y + j = pos := by
        have := (@List.Nodup.getElem_inj_iff _ _ hnd _ hblen _ hposlt).mp
          (by rw [hbget, hgetr])
        exact this
      refine hlU y ⟨hyL, ?_, ?_⟩
      · omega
      · omega
  · intro l hl hpos
    have hb := hbound l hl hpos
    refine ⟨hb, ?_⟩
    rw [leafRows, List.length_take, List.length_drop, hlen]
    omega
  · intro k hk
    obtain ⟨h1, h2, h3, h4⟩ := validOps_step ops (init N L) hops k hk
    exact split_begin_facts _ _ _ _ _ h4 h3

end LightGBM.DataPartition

namespace LightGBM.DataPartition

/-- Witness for C3: four rows, two leaves, one split of leaf 0 by row
parity onto the fresh leaf 1 with a single worker; the indices stay a
permutation of `[0, 4)`. -/
theorem dataPartition_split_invariants_witness :
    (([⟨0, fun r => r % 2 == 0, 1, 1⟩] : List SplitOp).foldl applyOp
      (init 4 2)).indices.Perm (List.range 4) :=
  (dataPartition_split_invariants 4 2 (by decide)
    [⟨0, fun r => r % 2 == 0, 1, 1⟩]
    ⟨by decide, by decide, by decide, by decide, trivial⟩).2.1

end LightGBM.DataPartition

/-! ### C2: early stopping (GBDT::OutputMetric, GBDT::TrainOneIter) -/

namespace LightGBM.EarlyStopping

/-- A validation metric: `bigger` is `Metric::is_bigger_better()`, and `val I`
is the last component (`test_scores.back()`) of `Eval` on the validation scores
as they stand at iteration `I`.  The metric values are an uninterpreted
function of the iteration number, since the score evolution itself is not at
issue for the early-stopping bookkeeping. -/
structure MetricSpec where
  bigger : Bool
  val : ℕ → ℚ

/-- The improvement test of `GBDT::OutputMetric`:
`best_score_[i][j] < 0 || (!the_bigger_the_better && test_scores.back() <
best_score_[i][j]) || (the_bigger_the_better && test_scores.back() >
best_score_[i][j])`. -/
abbrev Improve (I : ℕ) (m : MetricSpec) (bs : ℚ) : Prop :=
  bs < 0 ∨ (m.bigger = false ∧ m.val I < bs) ∨ (m.bigger = true ∧ bs < m.val I)

/-- One metric's turn inside the nested `valid_metrics_[i][j]` loops of
`GBDT::OutputMetric`.  The accumulator carries the processed metrics (each
paired with its `best_score_`/`best_iter_` cell) and the flag `ret`.  Guarded
by `!ret && early_stopping_round_ > 0`: on improvement the cell becomes
`(test_scores.back(), iter)`; otherwise `ret` is set when
`iter - best_iter_[i][j] >= early_stopping_round_`. -/
def omStep (es I : ℕ) (acc : List (MetricSpec × ℚ × ℕ) × Bool)
    (mb : MetricSpec × ℚ × ℕ) : List (MetricSpec × ℚ × ℕ) × Bool :=
  if acc.2 = false ∧ 0 < es then
    if Improve I mb.1 mb.2.1 then
      (acc.1 ++ [(mb.1, mb.1.val I, I)], acc.2)
    else if es ≤ I - mb.2.2 then
      (acc.1 ++ [mb], true)
    else
      (acc.1 ++ [mb], acc.2)
  else
    (acc.1 ++ [mb], acc.2)

/-- `GBDT::OutputMetric(iter)` restricted to its early-stopping effect: the
nested loops over `valid_metrics_[i][j]` visit the metrics in row-major order,
so they are a single left fold of `omStep` over the flattened metric list
(the `Log::Info` printing has no effect on the state). -/
def outputMetric (es I : ℕ) (L : List (MetricSpec × ℚ × ℕ)) :
    List (MetricSpec × ℚ × ℕ) × Bool :=
  L.foldl (omStep es I) ([], false)

/-- The update an untriggered pass of `OutputMetric` applies to one
`(metric, best_score, best_iter)` cell. -/
def updOne (I : ℕ) (mb : MetricSpec × ℚ × ℕ) : MetricSpec × ℚ × ℕ :=
  if Improve I mb.1 mb.2.1 then (mb.1, mb.1.val I, I) else mb

/-- A metric cell sets `ret` at iteration `I`: no improvement, and the gap
`I - best_iter` has reached `early_stopping_round`. -/
def Trigger (es I : ℕ) (mb : MetricSpec × ℚ × ℕ) : Prop :=
  ¬ Improve I mb.1 mb.2.1 ∧ es ≤ I - mb.2.2

/-- Training state for the early-stopping bookkeeping: `models` holds one tag
per tree, namely the (1-based) iteration that trained it, mirroring
`models_.push_back(new_tree)` once per class per iteration; `metrics` holds
each validation metric with its `best_score_`/`best_iter_` cell; `iter` is
`iter_`. -/
structure TrainState where
  models : List ℕ
  metrics : List (MetricSpec × ℚ × ℕ)
  iter : ℕ

/-- `GBDT::TrainOneIter` with `is_eval = true`, reduced to its model-list and
early-stopping effect: the per-class loop pushes `C` trees (tagged with the
iteration `iter_ + 1` that produced them), `OutputMetric(iter_ + 1)` updates
the metric cells and decides `is_met_early_stopping`, `iter_` is incremented,
and on stopping the last `early_stopping_round_ * num_class_` models are
popped. -/
def trainOneIter (C es : ℕ) (st : TrainState) : TrainState × Bool :=
  if (outputMetric es (st.iter + 1) st.metrics).2 then
    (⟨(st.models ++ List.replicate C (st.iter + 1)).take
        ((st.models ++ List.replicate C (st.iter + 1)).length - es * C),
      (outputMetric es (st.iter + 1) st.metrics).1, st.iter + 1⟩, true)
  else
    (⟨st.models ++ List.replicate C (st.iter + 1),
      (outputMetric es (st.iter + 1) st.metrics).1, st.iter + 1⟩, false)

/-- Modelled from the spec: the training driver (gbdt.h, absent from the
sources) runs `TrainOneIter` for up to `num_iterations` rounds and breaks as
soon as it returns `true`; the result records the final state and, when the
loop stopped early, the stopping iteration. -/
def trainLoop (C es : ℕ) : TrainState → ℕ → TrainState × Option ℕ
  | st, 0 => (st, none)
  | st, fuel + 1 =>
    if (trainOneIter C es st).2 then
      ((trainOneIter C es st).1, some (trainOneIter C es st).1.iter)
    else
      trainLoop C es (trainOneIter C es st).1 fuel

/-- Modelled from the spec: before training (gbdt.h, absent from the sources)
the model list is empty, `iter_ = 0`, every `best_score_` cell starts at a
negative sentinel (so the first evaluation always counts as an improvement)
and every `best_iter_` cell at `0`. -/
def initState (ms : List MetricSpec) : TrainState :=
  ⟨[], ms.map (fun m => (m, (-1 : ℚ), 0)), 0⟩

/-- The tags of the trees present after `k` full iterations with `C` classes:
`C` copies of each of `1, …, k`, in training order. -/
def iterTags (C k : ℕ) : List ℕ :=
  ((List.range' 1 k).map (fun i => List.replicate C i)).flatten


lemma iterTags_succ (C k : ℕ) :
    iterTags C (k + 1) = iterTags C k ++ List.replicate C (k + 1) := by
  unfold iterTags
  rw [List.range'_concat, List.map_append, List.flatten_append]
  simp [Nat.add_comm]

lemma iterTags_length (C k : ℕ) : (iterTags C k).length = k * C := by
  induction k with
  | zero => simp [iterTags]
  | succ n ih =>
      rw [iterTags_succ, List.length_append, ih, List.length_replicate]
      ring

lemma iterTags_take (C m k : ℕ) (h : m ≤ k) :
    (iterTags C k).take (m * C) = iterTags C m := by
  have h1 : List.range' 1 m ++ List.range' (1 + m) (k - m) = List.range' 1 k := by
    have h2 := List.range'_append 1 m (k - m) 1
    rw [Nat.one_mul] at h2
    rw [h2]
    congr 1
    omega
  have hsplit : iterTags C k = iterTags C m ++
      ((List.range' (1 + m) (k - m)).map (fun i => List.replicate C i)).flatten := by
    unfold iterTags
    rw [← List.flatten_append, ← List.map_append, h1]
  rw [hsplit]
  exact List.take_left' (iterTags_length C m)

lemma omStep_length (es I : ℕ) (acc : List (MetricSpec × ℚ × ℕ) × Bool)
    (mb : MetricSpec × ℚ × ℕ) :
    ((omStep es I acc mb).1).length = acc.1.length + 1 := by
  unfold omStep
  split
  · split
    · simp
    · split <;> simp
  · simp

lemma omFold_length (es I : ℕ) :
    ∀ (L : List (MetricSpec × ℚ × ℕ)) (p : List (MetricSpec × ℚ × ℕ) × Bool),
      ((L.foldl (omStep es I) p).1).length = p.1.length + L.length := by
  intro L
  induction L with
  | nil => intro p; simp
  | cons mb L ih =>
      intro p
      rw [List.foldl_cons, ih, omStep_length, List.length_cons]
      omega

lemma omFold_pass (es I : ℕ) :
    ∀ (L acc : List (MetricSpec × ℚ × ℕ)),
      L.foldl (omStep es I) (acc, true) = (acc ++ L, true) := by
  intro L
  induction L with
  | nil => intro acc; simp
  | cons mb L ih =>
      intro acc
      rw [List.foldl_cons]
      have hstep : omStep es I (acc, true) mb = (acc ++ [mb], true) := by
        simp [omStep]
      rw [hstep, ih]
      simp

lemma omFold_char (es I : ℕ) (hes : 0 < es) :
    ∀ (L acc : List (MetricSpec × ℚ × ℕ)),
      (L.foldl (omStep es I) (acc, false) = (acc ++ L.map (updOne I), false) ∧
        ∀ mb ∈ L, ¬ Trigger es I mb) ∨
      ((L.foldl (omStep es I) (acc, false)).2 = true ∧
        ∃ mb ∈ L, Trigger es I mb ∧ mb ∈ (L.foldl (omStep es I) (acc, false)).1) := by
  intro L
  induction L with
  | nil =>
      intro acc
      left
      refine ⟨by simp, ?_⟩
      intro mb h
      exact absurd h (List.not_mem_nil mb)
  | cons mb L ih =>
      intro acc
      rw [List.foldl_cons]
      by_cases himp : Improve I mb.1 mb.2.1
      · have hstep : omStep es I (acc, false) mb
            = (acc ++ [(mb.1, mb.1.val I, I)], false) := by
          simp [omStep, hes, himp]
        rw [hstep]
        rcases ih (acc ++ [(mb.1, mb.1.val I, I)]) with ⟨heq, hnt⟩ | ⟨hret, x, hx, htr, hmem⟩
        · left
          constructor
          · rw [heq]
            have hupd : updOne I mb = (mb.1, mb.1.val I, I) := by
              unfold updOne
              rw [if_pos himp]
            simp [hupd]
          · intro x hx
            rcases List.mem_cons.1 hx with heqx | hx'
            · subst heqx
              exact fun ht => ht.1 himp
            · exact hnt x hx'
        · right
          exact ⟨hret, x, List.mem_cons_of_mem _ hx, htr, hmem⟩
      · by_cases htrg : es ≤ I - mb.2.2
        · have hstep : omStep es I (acc, false) mb = (acc ++ [mb], true) := by
            simp [omStep, hes, himp, htrg]
          rw [hstep, omFold_pass]
          right
          refine ⟨rfl, mb, List.mem_cons_self mb L, ⟨himp, htrg⟩, ?_⟩
          simp
        · have hstep : omStep es I (acc, false) mb = (acc ++ [mb], false) := by
            simp [omStep, hes, himp, htrg]
          rw [hstep]
          rcases ih (acc ++ [mb]) with ⟨heq, hnt⟩ | ⟨hret, x, hx, htr, hmem⟩
          · left
            constructor
            · rw [heq]
              have hupd : updOne I mb = mb := by
                unfold updOne
                rw [if_neg himp]
              simp [hupd]
            · intro x hx
              rcases List.mem_cons.1 hx with heqx | hx'
              · subst heqx
                exact fun ht => htrg ht.2
              · exact hnt x hx'
          · right
            exact ⟨hret, x, List.mem_cons_of_mem _ hx, htr, hmem⟩

lemma trainLoop_stop_spec (C es : ℕ) (hes : 0 < es) :
    ∀ (fuel : ℕ), ∀ (k : ℕ) (st st' : TrainState) (I : ℕ),
      st.iter = k →
      st.models = iterTags C k →
      (∀ mb ∈ st.metrics, mb.2.2 ≤ k ∧ k < mb.2.2 + es) →
      trainLoop C es st fuel = (st', some I) →
      st'.iter = I ∧ st'.metrics.length = st.metrics.length ∧
      ∃ mb ∈ st'.metrics, ¬ Improve I mb.1 mb.2.1 ∧ mb.2.2 + es = I ∧
        st'.models = iterTags C mb.2.2 ∧ st'.models.length + es * C = I * C := by
  intro fuel
  induction fuel with
  | zero =>
      intro k st st' I hiter hmod hinv h
      simp [trainLoop] at h
  | succ n ih =>
      intro k st st' I hiter hmod hinv h
      simp only [trainLoop] at h
      rcases omFold_char es (k + 1) hes st.metrics [] with
        ⟨heq, hnt⟩ | ⟨hret, mb, hmb, htr, hmem⟩
      · -- no metric triggered at iteration k + 1, so the loop continues
        have hOM : outputMetric es (k + 1) st.metrics
            = (st.metrics.map (updOne (k + 1)), false) := by
          unfold outputMetric
          rw [heq]
          simp
        have h1 : trainOneIter C es st =
            (⟨iterTags C (k + 1), st.metrics.map (updOne (k + 1)), k + 1⟩, false) := by
          unfold trainOneIter
          rw [hiter, hOM, hmod, ← iterTags_succ]
          simp
        rw [h1] at h
        simp only [Bool.false_eq_true, if_false] at h
        have hinv' : ∀ x ∈ st.metrics.map (updOne (k + 1)),
            x.2.2 ≤ k + 1 ∧ k + 1 < x.2.2 + es := by
          intro x hx
          rcases List.mem_map.1 hx with ⟨y, hy, rfl⟩
          rcases hinv y hy with ⟨hb1, hb2⟩
          by_cases himp : Improve (k + 1) y.1 y.2.1
          · have hupd : updOne (k + 1) y = (y.1, y.1.val (k + 1), k + 1) := by
              unfold updOne
              rw [if_pos himp]
            rw [hupd]
            show k + 1 ≤ k + 1 ∧ k + 1 < (k + 1) + es
            omega
          · have hnotr : ¬ es ≤ (k + 1) - y.2.2 := fun hc => hnt y hy ⟨himp, hc⟩
            have hupd : updOne (k + 1) y = y := by
              unfold updOne
              rw [if_neg himp]
            rw [hupd]
            omega
        have hres := ih (k + 1)
          ⟨iterTags C (k + 1), st.metrics.map (updOne (k + 1)), k + 1⟩ st' I rfl rfl hinv' h
        rcases hres with ⟨r1, r2, r3⟩
        refine ⟨r1, ?_, r3⟩
        rw [r2]
        simp
      · -- a metric triggered at iteration k + 1, so the loop stops here
        have hOM : outputMetric es (k + 1) st.metrics
            = ((st.metrics.foldl (omStep es (k + 1)) ([], false)).1, true) := by
          unfold outputMetric
          rw [← hret]
        have hbi : mb.2.2 + es = k + 1 := by
          rcases hinv mb hmb with ⟨hb1, hb2⟩
          rcases htr with ⟨himp, hge⟩
          omega
        have htake : (iterTags C (k + 1)).take ((k + 1) * C - es * C)
            = iterTags C mb.2.2 := by
          have harith : (k + 1) * C - es * C = mb.2.2 * C := by
            rw [← hbi, Nat.add_mul, Nat.add_sub_cancel]
          rw [harith]
          exact iterTags_take C mb.2.2 (k + 1) (by omega)
        have h1 : trainOneIter C es st =
            (⟨iterTags C mb.2.2,
              (st.metrics.foldl (omStep es (k + 1)) ([], false)).1, k + 1⟩, true) := by
          unfold trainOneIter
          rw [hiter, hOM, hmod, ← iterTags_succ, iterTags_length, htake]
          simp
        rw [h1] at h
        simp only [if_true] at h
        simp only [Prod.mk.injEq, Option.some.injEq] at h
        obtain ⟨hst, hI⟩ := h
        subst hst
        subst hI
        refine ⟨rfl, ?_, ?_⟩
        · have hl := omFold_length es (k + 1) st.metrics ([], false)
          simpa using hl
        · refine ⟨mb, hmem, htr.1, hbi, rfl, ?_⟩
          rw [iterTags_length, ← Nat.add_mul, hbi]

/-- **C2.** During GBDT training with `early_stopping_round = es > 0` and `C`
classes, whenever the training loop stops early, say after producing the state
`st` at iteration `I`: some validation metric failed to improve at iteration
`I` with its recorded best iteration exactly `es` before `I`
(`best_iter + es = I`, i.e. training stops at the first iteration whose gap
from that metric's best reaches `es`); the surviving model consists of exactly
the trees of iterations `1, …, best_iter` — everything up to and including the
best iteration — and exactly `es * C` trees were removed from the end
(`|models| + es * C = I * C`). -/
theorem early_stopping_stops_and_truncates
    (ms : List MetricSpec) (C es fuel : ℕ) (hes : 0 < es)
    (st : TrainState) (I : ℕ)
    (h : trainLoop C es (initState ms) fuel = (st, some I)) :
    st.iter = I ∧ st.metrics.length = ms.length ∧
    ∃ mb ∈ st.metrics, ¬ Improve I mb.1 mb.2.1 ∧ mb.2.2 + es = I ∧
      st.models = iterTags C mb.2.2 ∧ st.models.length + es * C = I * C := by
  have hinv0 : ∀ mb ∈ (initState ms).metrics, mb.2.2 ≤ 0 ∧ 0 < mb.2.2 + es := by
    intro mb hmb
    simp only [initState] at hmb
    rcases List.mem_map.1 hmb with ⟨m, hm, rfl⟩
    simpa using hes
  have hmod0 : (initState ms).models = iterTags C 0 := by
    simp [initState, iterTags]
  have hmain := trainLoop_stop_spec C es hes fuel 0 (initState ms) st I rfl hmod0 hinv0 h
  rcases hmain with ⟨h1, h2, h3⟩
  refine ⟨h1, ?_, h3⟩
  rw [h2]
  simp [initState]

/-- A concrete metric for the C2 witness: smaller-is-better, value 5 at
iteration 1 and 7 afterwards, so iteration 1 improves on the negative sentinel
and iteration 2 does not. -/
def c2WitMetric : MetricSpec := ⟨false, fun i => if i = 1 then 5 else 7⟩

/-- Witness for C2: one class, `early_stopping_round = 1`, one metric that
worsens after iteration 1; training stops at iteration 2, the surviving model
is exactly iteration 1's tree, and one tree was popped. -/
theorem early_stopping_stops_and_truncates_witness :
    (⟨[1], [(c2WitMetric, 5, 1)], 2⟩ : TrainState).iter = 2 ∧
    (⟨[1], [(c2WitMetric, 5, 1)], 2⟩ : TrainState).metrics.length
      = [c2WitMetric].length ∧
    ∃ mb ∈ (⟨[1], [(c2WitMetric, 5, 1)], 2⟩ : TrainState).metrics,
      ¬ Improve 2 mb.1 mb.2.1 ∧ mb.2.2 + 1 = 2 ∧
      (⟨[1], [(c2WitMetric, 5, 1)], 2⟩ : TrainState).models = iterTags 1 mb.2.2 ∧
      (⟨[1], [(c2WitMetric, 5, 1)], 2⟩ : TrainState).models.length + 1 * 1 = 2 * 1 :=
  early_stopping_stops_and_truncates [c2WitMetric] 1 1 2 (by decide)
    ⟨[1], [(c2WitMetric, 5, 1)], 2⟩ 2 (by
      have s1 : trainOneIter 1 1 (initState [c2WitMetric]) =
          (⟨[1], [(c2WitMetric, 5, 1)], 1⟩, false) := by
        norm_num [trainOneIter, outputMetric, omStep, initState, c2WitMetric, Improve]
      have s2 : trainOneIter 1 1 (⟨[1], [(c2WitMetric, 5, 1)], 1⟩ : TrainState) =
          (⟨[1], [(c2WitMetric, 5, 1)], 2⟩, true) := by
        norm_num [trainOneIter, outputMetric, omStep, c2WitMetric, Improve]
      show trainLoop 1 1 (initState [c2WitMetric]) (1 + 1) = _
      rw [trainLoop, s1]
      norm_num
      rw [trainLoop, s2]
      simp)

end LightGBM.EarlyStopping
